import Mathlib

/-!
# Verification of the nodejs_waiter completion-detection engine

A shallow embedding of `nodejs_waiter/src/waiter.rs` and proofs of the
claims of the specification against it.

Modelling conventions:

* The opaque, equality-comparable identifiers (`ZomeFnCall`, the committed
  `Entry`, the direct-message `msg_id`) are modelled as `Nat`.
* The payloads that the waiter never inspects are elided: the second
  component of `Action::Commit((entry, _))`, the result payload of
  `ExecuteZomeFnResponse` (only `r.call()` is compared), and the
  `address`/`is_response` fields of `DirectMessageData`.
* A `ControlSender` (`SyncSender<ControlMsg>`) is modelled by the identifier
  of its channel; the only message ever sent is `ControlMsg::Stop`, so a
  successful `tx.send(ControlMsg::Stop)` is recorded by appending the
  channel identifier to a send log.  The predicate `alive : Nat → Bool`
  says whether the consumer still holds the receiving half of a channel;
  `tx.send(..)` fails exactly when the receiver was dropped, and the code
  calls `.unwrap()` on the result, so a send on a dead channel is a panic,
  modelled as `Except.error ()`.  A panicking run carries no further
  observations.
* `Waiter.checkers` is a `HashMap<ZomeFnCall, CallFxChecker>`; it is
  modelled as an association list with the usual map operations
  (`insert` replaces the entry of an existing key).  Iteration order of the
  hash map is arbitrary in Rust; all properties proved below are
  insensitive to it.
* `sender_rx : Receiver<ControlSender>` is modelled by the list of sender
  identifiers currently pending in the registration channel; `try_recv`
  pops the head if the list is nonempty.
-/

namespace NodejsWaiter

/-- Opaque invocation identifier (`ZomeFnCall`: zome + capability + fn + params,
`Eq + Hash` in the source). -/
abbrev ZomeFnCall := Nat

/-- Opaque identifier of a committed entry. -/
abbrev Entry := Nat

/-- Opaque identifier of a direct message (`msg_id: String` in the source). -/
abbrev MsgId := Nat

/-- `DirectMessage`: the `Custom` variant is the one requiring a round trip;
all other variants of the source enum are collapsed into `Other`. -/
inductive DirectMessage where
  | Custom (payload : Nat)
  | Other (tag : Nat)
  deriving DecidableEq, Repr

/-- The fields of `DirectMessageData` that the waiter inspects. -/
structure DirectMessageData where
  msg_id : MsgId
  message : DirectMessage
  deriving DecidableEq, Repr

/-- The variants of `Action` that the waiter reacts to (an `ActionWrapper`
is compared only through `aw.action()`, so it is identified with its
action).  `OtherAction` stands for every remaining variant. -/
inductive Action where
  | ExecuteZomeFunction (call : ZomeFnCall)
  | ReturnZomeFunctionResult (call : ZomeFnCall)
  | Commit (entry : Entry)
  | Hold (entry : Entry)
  | SendDirectMessage (data : DirectMessageData)
  | ResolveDirectConnection (msg_id : MsgId)
  | SendDirectMessageTimeout (msg_id : MsgId)
  | OtherAction (tag : Nat)
  deriving DecidableEq, Repr

/-- `Signal`: the waiter only reacts to `Signal::Internal`. -/
inductive Signal where
  | Internal (aw : Action)
  | OtherSignal (tag : Nat)
  deriving DecidableEq, Repr

/-- The three closure shapes stored as `CallFxCondition` in the source,
represented by the data they close over:
* the closure added on `ExecuteZomeFunction` (`r.call() == call` under
  `ReturnZomeFunctionResult`),
* the closure added on `Commit` (`*aw.action() == Action::Hold(entry)`),
* the closure added on `SendDirectMessage` with a `Custom` message
  (`[ResolveDirectConnection(msg_id), SendDirectMessageTimeout(msg_id)]
  .contains(aw.action())`). -/
inductive CallFxCondition where
  | awaitReturn (call : ZomeFnCall)
  | awaitHold (entry : Entry)
  | awaitPeerOutcome (msg_id : MsgId)
  deriving DecidableEq, Repr

/-- Evaluation of a stored condition closure on an action. -/
def CallFxCondition.satisfiedBy : CallFxCondition → Action → Bool
  | .awaitReturn call, .ReturnZomeFunctionResult c => c == call
  | .awaitHold entry, .Hold e => e == entry
  | .awaitPeerOutcome m, .ResolveDirectConnection mid => mid == m
  | .awaitPeerOutcome m, .SendDirectMessageTimeout mid => mid == m
  | _, _ => false

/-- `CallFxChecker`: the pending conditions of one invocation together with
its `ControlSender` (modelled by the channel identifier `tx`). -/
structure CallFxChecker where
  tx : Nat
  conditions : List CallFxCondition
  deriving DecidableEq, Repr

/-- `CallFxChecker::new`. -/
def CallFxChecker.new (tx : Nat) : CallFxChecker := ⟨tx, []⟩

/-- `CallFxChecker::stop`: `self.tx.send(ControlMsg::Stop).unwrap()`.
A successful send is logged; a send on a channel whose receiver was
dropped fails, and the `.unwrap()` panics (`Except.error ()`). -/
def CallFxChecker.stop (ch : CallFxChecker) (alive : Nat → Bool) :
    Except Unit (List Nat) :=
  if alive ch.tx then .ok [ch.tx] else .error ()

/-- `CallFxChecker::run_checks`: retain the unsatisfied conditions; if the
set went from non-empty to empty, `stop()` and report removal (`false`),
otherwise report retention (`true`).  Also returns the send log of the
call. -/
def CallFxChecker.run_checks (ch : CallFxChecker) (alive : Nat → Bool)
    (aw : Action) : Except Unit (CallFxChecker × Bool × List Nat) :=
  let was_empty := ch.conditions.isEmpty
  let ch' : CallFxChecker :=
    { ch with conditions := ch.conditions.filter fun cond => !cond.satisfiedBy aw }
  if ch'.conditions.isEmpty && !was_empty then
    (ch'.stop alive).map fun new => (ch', false, new)
  else
    .ok (ch', true, [])

/-- `CallFxChecker::shutdown`: clear the conditions, then `stop()`. -/
def CallFxChecker.shutdown (ch : CallFxChecker) (alive : Nat → Bool) :
    Except Unit (CallFxChecker × List Nat) :=
  let ch' : CallFxChecker := { ch with conditions := [] }
  (ch'.stop alive).map fun new => (ch', new)

/-- Lookup in the checkers map (`HashMap::get` / `get_mut`). -/
def lookupChecker : List (ZomeFnCall × CallFxChecker) → ZomeFnCall →
    Option CallFxChecker
  | [], _ => none
  | (k, ch) :: rest, c => if k == c then some ch else lookupChecker rest c

/-- In-place update of the conditions of the entry of key `c`
(the effect of `checker.add(f)` through the `&mut` reference returned by
`current_checker()`); a missing key leaves the map unchanged. -/
def addCond : List (ZomeFnCall × CallFxChecker) → ZomeFnCall →
    CallFxCondition → List (ZomeFnCall × CallFxChecker)
  | [], _, _ => []
  | (k, ch) :: rest, c, cond =>
    if k == c then
      (k, { ch with conditions := ch.conditions ++ [cond] }) :: rest
    else
      (k, ch) :: addCond rest c cond

/-- `HashMap::insert`: replace the entry of an existing key, otherwise add
a new entry. -/
def insertChecker : List (ZomeFnCall × CallFxChecker) → ZomeFnCall →
    CallFxChecker → List (ZomeFnCall × CallFxChecker)
  | [], c, ch => [(c, ch)]
  | (k, old) :: rest, c, ch =>
    if k == c then (k, ch) :: rest else (k, old) :: insertChecker rest c ch

/-- `Waiter`: the checkers map, the current attribution target, and the
queue of pending registration senders (`sender_rx`). -/
structure Waiter where
  checkers : List (ZomeFnCall × CallFxChecker)
  current : Option ZomeFnCall
  sender_rx : List Nat
  deriving DecidableEq, Repr

/-- `Waiter::new`. -/
def Waiter.new (sender_rx : List Nat) : Waiter := ⟨[], none, sender_rx⟩

/-- `Waiter::current_checker`:
`self.current.clone().and_then(|call| self.checkers.get_mut(&call))`. -/
def Waiter.current_checker (w : Waiter) : Option CallFxChecker :=
  match w.current with
  | none => none
  | some c => lookupChecker w.checkers c

/-- `Waiter::add_call`: insert a fresh checker under `call` and make it
current. -/
def Waiter.add_call (w : Waiter) (call : ZomeFnCall) (tx : Nat) : Waiter :=
  { w with
    checkers := insertChecker w.checkers call (CallFxChecker.new tx)
    current := some call }

/-- `Waiter::deactivate_current`. -/
def Waiter.deactivate_current (w : Waiter) : Waiter := { w with current := none }

/-- The attribution phase of `Waiter::process_signal`: the `match` on the
action that mutates the map, the `current` pointer and the registration
queue, before any condition is evaluated.
* `ExecuteZomeFunction(call)`: `sender_rx.try_recv()`; on `Ok(sender)`,
  `add_call` then add the `awaitReturn` condition to the (just inserted,
  hence present) current checker; on `Err`, `deactivate_current`.
* `Commit((entry, _))`: if `current_checker()` is `Some`, add `awaitHold`.
* `SendDirectMessage(data)`: if `current_checker()` is `Some` and the
  message is `Custom`, add `awaitPeerOutcome data.msg_id`.
* every other action: no effect. -/
def Waiter.attribution (w : Waiter) (aw : Action) : Waiter :=
  match aw with
  | .ExecuteZomeFunction call =>
    match w.sender_rx with
    | tx :: rest =>
      let w1 := { w.add_call call tx with sender_rx := rest }
      { w1 with checkers := addCond w1.checkers call (.awaitReturn call) }
    | [] => w.deactivate_current
  | .Commit entry =>
    match w.current with
    | some c =>
      match lookupChecker w.checkers c with
      | some _ => { w with checkers := addCond w.checkers c (.awaitHold entry) }
      | none => w
    | none => w
  | .SendDirectMessage data =>
    match w.current, data.message with
    | some c, .Custom _ =>
      match lookupChecker w.checkers c with
      | some _ =>
        { w with checkers := addCond w.checkers c (.awaitPeerOutcome data.msg_id) }
      | none => w
    | _, _ => w
  | _ => w

/-- The evaluation phase (`Waiter::run_checks`):
`self.checkers.retain(|_, checker| checker.run_checks(aw))`, collecting the
send log and propagating a panic of any `stop()`. -/
def runChecksMap (alive : Nat → Bool) (aw : Action) :
    List (ZomeFnCall × CallFxChecker) →
    Except Unit (List (ZomeFnCall × CallFxChecker) × List Nat)
  | [] => .ok ([], [])
  | (k, ch) :: rest =>
    match ch.run_checks alive aw with
    | .error _ => .error ()
    | .ok (ch', keep, new0) =>
      match runChecksMap alive aw rest with
      | .error _ => .error ()
      | .ok (rest', new) =>
        if keep then .ok ((k, ch') :: rest', new0 ++ new)
        else .ok (rest', new0 ++ new)

/-- `Waiter::run_checks` on the whole state. -/
def Waiter.run_checks (w : Waiter) (alive : Nat → Bool) (aw : Action) :
    Except Unit (Waiter × List Nat) :=
  (runChecksMap alive aw w.checkers).map fun p =>
    ({ w with checkers := p.1 }, p.2)

/-- `Waiter::process_signal`: on `Signal::Internal(aw)`, attribution phase
then evaluation phase; any other signal is ignored. -/
def Waiter.process_signal (w : Waiter) (alive : Nat → Bool) (sig : Signal) :
    Except Unit (Waiter × List Nat) :=
  match sig with
  | .Internal aw => (w.attribution aw).run_checks alive aw
  | .OtherSignal _ => .ok (w, [])

/-- A sequence of `process_signal` calls, accumulating the send log. -/
def processTrace (alive : Nat → Bool) (w : Waiter) :
    List Signal → Except Unit (Waiter × List Nat)
  | [] => .ok (w, [])
  | sig :: rest =>
    match w.process_signal alive sig with
    | .error _ => .error ()
    | .ok (w1, new) =>
      match processTrace alive w1 rest with
      | .error _ => .error ()
      | .ok (w2, later) => .ok (w2, new ++ later)

/-- One outcome of `signal_rx.recv_timeout` in `MainBackgroundTask::perform`:
a signal, a timeout (`continue`), or a disconnection (any other error,
fatal). -/
inductive PollResult where
  | signal (sig : Signal)
  | timeout
  | disconnected
  deriving DecidableEq, Repr

/-- How the `while *is_running` loop ended: the flag was observed `false`,
or a fatal receive error occurred. -/
inductive LoopExit where
  | flagStop (w : Waiter) (sends : List Nat)
  | fatal (e : String) (w : Waiter) (sends : List Nat)

/-- The waiter state at a loop exit. -/
def LoopExit.state : LoopExit → Waiter
  | .flagStop w _ => w
  | .fatal _ w _ => w

/-- The sends accumulated by the loop up to its exit. -/
def LoopExit.sends : LoopExit → List Nat
  | .flagStop _ s => s
  | .fatal _ _ s => s

/-- The `while *self.is_running.lock().unwrap()` loop of
`MainBackgroundTask::perform`.  Each schedule item is the value of the
`is_running` flag observed at the top of the iteration paired with the
result of `recv_timeout`; an exhausted schedule stands for the flag having
been flipped to `false`. -/
def runLoop (alive : Nat → Bool) (w : Waiter) :
    List (Bool × PollResult) → Except Unit LoopExit
  | [] => .ok (.flagStop w [])
  | (flag, pr) :: rest =>
    if flag then
      match pr with
      | .timeout => runLoop alive w rest
      | .disconnected => .ok (.fatal "disconnected" w [])
      | .signal sig =>
        match w.process_signal alive sig with
        | .error _ => .error ()
        | .ok (w', new) =>
          match runLoop alive w' rest with
          | .error _ => .error ()
          | .ok (.flagStop w2 sends) => .ok (.flagStop w2 (new ++ sends))
          | .ok (.fatal e w2 sends) => .ok (.fatal e w2 (new ++ sends))
    else .ok (.flagStop w [])

/-- The shutdown pass at the end of `MainBackgroundTask::perform`:
`for (_, checker) in checkers.iter_mut() { checker.shutdown() }`.
Note that it mutates each checker in place and does not remove any entry
from the map. -/
def shutdownAllList (alive : Nat → Bool) :
    List (ZomeFnCall × CallFxChecker) →
    Except Unit (List (ZomeFnCall × CallFxChecker) × List Nat)
  | [] => .ok ([], [])
  | (k, ch) :: rest =>
    match ch.shutdown alive with
    | .error _ => .error ()
    | .ok (ch', new0) =>
      match shutdownAllList alive rest with
      | .error _ => .error ()
      | .ok (rest', new) => .ok ((k, ch') :: rest', new0 ++ new)

/-- The observable outcome of `MainBackgroundTask::perform`:
the returned `Result` (`Err` carries the fatal receive error), the final
waiter state, the complete send log, and whether the shutdown pass ran. -/
structure RunnerResult where
  result : Except String Unit
  finalState : Waiter
  sends : List Nat
  shutdownRan : Bool

/-- `MainBackgroundTask::perform`: run the polling loop; on a flag-triggered
exit run the shutdown pass over the remaining checkers and return `Ok(())`;
on a fatal receive error return `Err` immediately (the `return
Err(err.to_string())` in the loop body skips the shutdown pass). -/
def perform (alive : Nat → Bool) (w : Waiter)
    (sched : List (Bool × PollResult)) : Except Unit RunnerResult :=
  match runLoop alive w sched with
  | .error _ => .error ()
  | .ok (.flagStop w' sends) =>
    match shutdownAllList alive w'.checkers with
    | .error _ => .error ()
    | .ok (cks, new) =>
      .ok ⟨.ok (), { w' with checkers := cks }, sends ++ new, true⟩
  | .ok (.fatal e w' sends) => .ok ⟨.error e, w', sends, false⟩

/-- The per-checker sender identifiers of a checkers map. -/
def txList (cks : List (ZomeFnCall × CallFxChecker)) : List Nat :=
  cks.map fun p => p.2.tx

/-- The keys of a checkers map. -/
def keyList (cks : List (ZomeFnCall × CallFxChecker)) : List ZomeFnCall :=
  cks.map Prod.fst

/-- Well-formedness of the channels: every channel identifier occurs at
most once across the send log so far, the senders held by checkers, and
the senders pending in the registration queue.  This holds in the source
because every `sync_channel` pair is fresh. -/
def WFsenders (w : Waiter) (sends : List Nat) : Prop :=
  ∀ a : Nat, sends.count a + (txList w.checkers).count a + w.sender_rx.count a ≤ 1

/-- Key uniqueness of the checkers map (a `HashMap` invariant). -/
def WFkeys (w : Waiter) : Prop :=
  ∀ a : ZomeFnCall, (keyList w.checkers).count a ≤ 1

/-- All consumers keep their receivers. -/
def aliveAll : Nat → Bool := fun _ => true

/-- Every consumer has dropped its receiver. -/
def deadAll : Nat → Bool := fun _ => false

/-- Along the processed run of a schedule, no `ExecuteZomeFunction c`
signal consumes a pending registration: whenever such a same-id start is
processed, the registration intake is empty at that moment (the start is
then untracked — `try_recv` fails, only `current` is cleared — and no
outstanding ConditionSet is replaced). -/
def noConsumingReexec (alive : Nat → Bool) (c : ZomeFnCall) (w : Waiter) :
    List (Bool × PollResult) → Prop
  | [] => True
  | (flag, pr) :: rest =>
    flag = true →
      ((pr = PollResult.signal (Signal.Internal (Action.ExecuteZomeFunction c)) →
          w.sender_rx = []) ∧
       (pr = PollResult.timeout → noConsumingReexec alive c w rest) ∧
       (∀ sig w' new, pr = PollResult.signal sig →
          w.process_signal alive sig = .ok (w', new) →
          noConsumingReexec alive c w' rest))

/-- The event order of the `can_await_commit_funky_ordering` scenario, with
invocation A = `1` (registered with sender `100`), B = `2` (sender `101`),
and entries A1 = `11`, B2 = `12`, B3 = `13`:
start A; write A1; return A; start B; write B2; write B3; acknowledge A1;
return B; acknowledge B2; acknowledge B3. -/
def funkySignals : List Signal :=
  [ .Internal (.ExecuteZomeFunction 1)
  , .Internal (.Commit 11)
  , .Internal (.ReturnZomeFunctionResult 1)
  , .Internal (.ExecuteZomeFunction 2)
  , .Internal (.Commit 12)
  , .Internal (.Commit 13)
  , .Internal (.Hold 11)
  , .Internal (.ReturnZomeFunctionResult 2)
  , .Internal (.Hold 12)
  , .Internal (.Hold 13) ]

/-! ## Lemmas about the map operations -/

theorem addCond_txList (cks : List (ZomeFnCall × CallFxChecker)) (c : ZomeFnCall)
    (cond : CallFxCondition) : txList (addCond cks c cond) = txList cks := by
  induction cks with
  | nil => rfl
  | cons p rest ih =>
    obtain ⟨k, ch⟩ := p
    by_cases h : k = c
    · simp [addCond, txList, h]
    · simp only [addCond, beq_iff_eq, h, if_false, txList, List.map_cons]
      simpa [txList] using ih

theorem addCond_keyList (cks : List (ZomeFnCall × CallFxChecker)) (c : ZomeFnCall)
    (cond : CallFxCondition) : keyList (addCond cks c cond) = keyList cks := by
  induction cks with
  | nil => rfl
  | cons p rest ih =>
    obtain ⟨k, ch⟩ := p
    by_cases h : k = c
    · simp [addCond, keyList, h]
    · simp only [addCond, beq_iff_eq, h, if_false, keyList, List.map_cons]
      simpa [keyList] using ih

theorem addCond_mem (cks : List (ZomeFnCall × CallFxChecker)) (c : ZomeFnCall)
    (cond : CallFxCondition) (k : ZomeFnCall) (ch : CallFxChecker)
    (h : (k, ch) ∈ cks) :
    ∃ ch', (k, ch') ∈ addCond cks c cond ∧ ch'.tx = ch.tx ∧
      (ch'.conditions = ch.conditions ∨ ch'.conditions = ch.conditions ++ [cond]) := by
  induction cks with
  | nil => cases h
  | cons p rest ih =>
    obtain ⟨k0, ch0⟩ := p
    rcases List.mem_cons.mp h with heq | hmem
    · injection heq with h1 h2
      subst h1; subst h2
      by_cases hk : k = c
      · subst hk
        exact ⟨{ ch with conditions := ch.conditions ++ [cond] },
          by simp [addCond], rfl, Or.inr rfl⟩
      · exact ⟨ch, by simp [addCond, hk], rfl, Or.inl rfl⟩
    · by_cases hk : k0 = c
      · exact ⟨ch, by simp [addCond, hk, hmem], rfl, Or.inl rfl⟩
      · obtain ⟨ch', h1, h2, h3⟩ := ih hmem
        exact ⟨ch', by simp [addCond, hk, h1], h2, h3⟩

theorem addCond_mem_rev (cks : List (ZomeFnCall × CallFxChecker)) (c : ZomeFnCall)
    (cond : CallFxCondition) (k : ZomeFnCall) (ch' : CallFxChecker)
    (h : (k, ch') ∈ addCond cks c cond) :
    ∃ ch, (k, ch) ∈ cks ∧ ch.tx = ch'.tx ∧
      (ch'.conditions = ch.conditions ∨ ch'.conditions = ch.conditions ++ [cond]) := by
  induction cks with
  | nil => cases h
  | cons p rest ih =>
    obtain ⟨k0, ch0⟩ := p
    by_cases hk : k0 = c
    · simp only [addCond, beq_iff_eq, hk, if_true] at h
      rcases List.mem_cons.mp h with heq | hmem
      · injection heq with h1 h2
        subst h1
        exact ⟨ch0, by simp [hk], by simp [h2], Or.inr (by simp [h2])⟩
      · exact ⟨ch', List.mem_cons_of_mem _ hmem, rfl, Or.inl rfl⟩
    · simp only [addCond, beq_iff_eq, hk, if_false] at h
      rcases List.mem_cons.mp h with heq | hmem
      · exact ⟨ch', heq ▸ List.mem_cons_self _ _, rfl, Or.inl rfl⟩
      · obtain ⟨ch, h1, h2, h3⟩ := ih hmem
        exact ⟨ch, List.mem_cons_of_mem _ h1, h2, h3⟩

theorem insertChecker_keyList (cks : List (ZomeFnCall × CallFxChecker))
    (c : ZomeFnCall) (ch : CallFxChecker) :
    keyList (insertChecker cks c ch) =
      if c ∈ keyList cks then keyList cks else keyList cks ++ [c] := by
  induction cks with
  | nil => simp [insertChecker, keyList]
  | cons p rest ih =>
    obtain ⟨k0, ch0⟩ := p
    by_cases hk : k0 = c
    · simp [insertChecker, keyList, hk]
    · have : (c ∈ keyList ((k0, ch0) :: rest)) = (c ∈ keyList rest) := by
        simp [keyList, Ne.symm hk]
      by_cases hmem : c ∈ keyList rest <;>
        simp_all [insertChecker, keyList, hk, Ne.symm hk]

theorem insertChecker_txList_count (cks : List (ZomeFnCall × CallFxChecker))
    (c : ZomeFnCall) (ch : CallFxChecker) (a : Nat) :
    (txList (insertChecker cks c ch)).count a ≤
      (txList cks).count a + (if a = ch.tx then 1 else 0) := by
  induction cks with
  | nil =>
    simp only [insertChecker, txList, List.map_cons, List.map_nil, List.count_cons,
      List.count_nil]
    by_cases h : a = ch.tx
    · simp [h]
    · simp [h, Ne.symm h]
  | cons p rest ih =>
    obtain ⟨k0, ch0⟩ := p
    by_cases hk : k0 = c
    · simp only [insertChecker, beq_iff_eq, hk, if_true, txList, List.map_cons,
        List.count_cons]
      split_ifs <;> omega
    · simp only [insertChecker, beq_iff_eq, hk, if_false, txList, List.map_cons,
        List.count_cons]
      have hih := ih
      simp only [txList] at hih
      split_ifs at * <;> omega

theorem insertChecker_mem_rev (cks : List (ZomeFnCall × CallFxChecker))
    (c : ZomeFnCall) (ch : CallFxChecker) (k : ZomeFnCall) (ch' : CallFxChecker)
    (h : (k, ch') ∈ insertChecker cks c ch) :
    (k, ch') ∈ cks ∨ (k = c ∧ ch' = ch) := by
  induction cks with
  | nil =>
    simp only [insertChecker, List.mem_singleton] at h
    obtain ⟨h1, h2⟩ := Prod.mk.injEq .. ▸ h
    exact Or.inr ⟨h1, h2⟩
  | cons p rest ih =>
    obtain ⟨k0, ch0⟩ := p
    by_cases hk : k0 = c
    · simp only [insertChecker, beq_iff_eq, hk, if_true] at h
      rcases List.mem_cons.mp h with heq | hmem
      · obtain ⟨h1, h2⟩ := Prod.mk.injEq .. ▸ heq
        exact Or.inr ⟨h1, h2⟩
      · exact Or.inl (List.mem_cons_of_mem _ hmem)
    · simp only [insertChecker, beq_iff_eq, hk, if_false] at h
      rcases List.mem_cons.mp h with heq | hmem
      · exact Or.inl (heq ▸ List.mem_cons_self _ _)
      · rcases ih hmem with h' | h'
        · exact Or.inl (List.mem_cons_of_mem _ h')
        · exact Or.inr h'

theorem insertChecker_mem_of_ne (cks : List (ZomeFnCall × CallFxChecker))
    (c : ZomeFnCall) (ch : CallFxChecker) (k : ZomeFnCall) (ch0 : CallFxChecker)
    (hne : k ≠ c) (h : (k, ch0) ∈ cks) : (k, ch0) ∈ insertChecker cks c ch := by
  induction cks with
  | nil => cases h
  | cons p rest ih =>
    obtain ⟨k0, ch1⟩ := p
    by_cases hk : k0 = c
    · simp only [insertChecker, beq_iff_eq, hk, if_true]
      rcases List.mem_cons.mp h with heq | hmem
      · injection heq with h1 h2
        exact absurd (h1.trans hk) hne
      · exact List.mem_cons_of_mem _ hmem
    · simp only [insertChecker, beq_iff_eq, hk, if_false]
      rcases List.mem_cons.mp h with heq | hmem
      · exact heq ▸ List.mem_cons_self _ _
      · exact List.mem_cons_of_mem _ (ih hmem)

theorem insertChecker_tx_notin (cks : List (ZomeFnCall × CallFxChecker))
    (c : ZomeFnCall) (ch nch : CallFxChecker)
    (hk : (keyList cks).count c ≤ 1) (hmem : (c, ch) ∈ cks)
    (ht : (txList cks).count ch.tx ≤ 1) (hne : nch.tx ≠ ch.tx) :
    ch.tx ∉ txList (insertChecker cks c nch) := by
  induction cks with
  | nil => cases hmem
  | cons p rest ih =>
    obtain ⟨k0, ch0⟩ := p
    have hkeys : (keyList ((k0, ch0) :: rest)).count c =
        (keyList rest).count c + (if k0 = c then 1 else 0) := by
      simp [keyList, List.count_cons]
    have htxs : (txList ((k0, ch0) :: rest)).count ch.tx =
        (txList rest).count ch.tx + (if ch0.tx = ch.tx then 1 else 0) := by
      simp [txList, List.count_cons]
    by_cases hkc : k0 = c
    · have hrestkey : (keyList rest).count c = 0 := by
        rw [hkeys] at hk
        simp only [if_pos hkc] at hk
        omega
      have hch : ch = ch0 := by
        rcases List.mem_cons.mp hmem with heq | hmem'
        · exact congrArg Prod.snd heq
        · exfalso
          have hmemk : c ∈ keyList rest := by
            simpa [keyList] using List.mem_map_of_mem Prod.fst hmem'
          exact (List.count_eq_zero.mp hrestkey) hmemk
      have hresttx : (txList rest).count ch.tx = 0 := by
        rw [htxs, ← hch] at ht
        simp at ht
        omega
      simp only [insertChecker, beq_iff_eq, hkc, if_true, txList, List.map_cons,
        List.mem_cons]
      rintro (h | h)
      · exact hne h.symm
      · exact (List.count_eq_zero.mp hresttx) (by simpa [txList] using h)
    · have hmem' : (c, ch) ∈ rest := by
        rcases List.mem_cons.mp hmem with heq | hmem'
        · exact absurd (congrArg Prod.fst heq).symm hkc
        · exact hmem'
      have hpos : 0 < (txList rest).count ch.tx := by
        refine List.count_pos_iff.mpr ?_
        simpa [txList] using List.mem_map_of_mem (fun p => p.2.tx) hmem'
      have htx0 : ch0.tx ≠ ch.tx := by
        intro hEq
        rw [htxs] at ht
        simp only [if_pos hEq] at ht
        omega
      have hk' : (keyList rest).count c ≤ 1 := by
        rw [hkeys] at hk
        simp only [if_neg hkc] at hk
        omega
      have ht' : (txList rest).count ch.tx ≤ 1 := by
        rw [htxs] at ht
        split_ifs at ht <;> omega
      simp only [insertChecker, beq_iff_eq, hkc, if_false, txList, List.map_cons,
        List.mem_cons]
      rintro (h | h)
      · exact htx0 h.symm
      · exact ih hk' hmem' ht' (by simpa [txList] using h)

/-! ## Lemmas about a single checker -/

theorem run_checks_ok_cases (ch : CallFxChecker) (alive : Nat → Bool) (aw : Action)
    (ch' : CallFxChecker) (keep : Bool) (new0 : List Nat)
    (h : ch.run_checks alive aw = .ok (ch', keep, new0)) :
    ch' = { ch with conditions := ch.conditions.filter fun c => !c.satisfiedBy aw } ∧
      ((keep = true ∧ new0 = [] ∧
        (ch.conditions = [] ∨ ch.conditions.filter (fun c => !c.satisfiedBy aw) ≠ [])) ∨
       (keep = false ∧ new0 = [ch.tx] ∧ alive ch.tx = true ∧ ch.conditions ≠ [] ∧
        ch.conditions.filter (fun c => !c.satisfiedBy aw) = [])) := by
  dsimp only [CallFxChecker.run_checks, CallFxChecker.stop] at h
  split at h
  · next hcond =>
    rw [Bool.and_eq_true] at hcond
    obtain ⟨h1, h2⟩ := hcond
    have hf : ch.conditions.filter (fun c => !c.satisfiedBy aw) = [] :=
      List.isEmpty_iff.mp h1
    have hne : ch.conditions ≠ [] := by
      rw [Bool.not_eq_true'] at h2
      exact List.isEmpty_eq_false.mp h2
    split at h
    · next hal =>
      simp only [Except.map, Except.ok.injEq, Prod.mk.injEq] at h
      obtain ⟨hc, hk, hn⟩ := h
      exact ⟨hc.symm, Or.inr ⟨hk.symm, hn.symm, hal, hne, hf⟩⟩
    · simp only [Except.map] at h
      cases h
  · next hcond =>
    simp only [Bool.and_eq_true, Bool.not_eq_true', List.isEmpty_iff,
      List.isEmpty_eq_false, not_and, not_not] at hcond
    simp only [Except.ok.injEq, Prod.mk.injEq] at h
    obtain ⟨hc, hk, hn⟩ := h
    refine ⟨hc.symm, Or.inl ⟨hk.symm, hn.symm, ?_⟩⟩
    by_cases hnil : ch.conditions = []
    · exact Or.inl hnil
    · exact Or.inr fun hf => hnil (hcond hf)

theorem run_checks_panics (ch : CallFxChecker) (alive : Nat → Bool) (aw : Action)
    (hne : ch.conditions ≠ [])
    (hf : ch.conditions.filter (fun c => !c.satisfiedBy aw) = [])
    (hal : alive ch.tx = false) :
    ch.run_checks alive aw = .error () := by
  dsimp only [CallFxChecker.run_checks, CallFxChecker.stop]
  simp [hf, hne, hal, Except.map]

/-! ## Lemmas about the evaluation phase over the whole map -/

theorem runChecksMap_count (alive : Nat → Bool) (aw : Action)
    (cks : List (ZomeFnCall × CallFxChecker))
    (cks' : List (ZomeFnCall × CallFxChecker)) (new : List Nat)
    (h : runChecksMap alive aw cks = .ok (cks', new)) (a : Nat) :
    new.count a + (txList cks').count a = (txList cks).count a := by
  induction cks generalizing cks' new with
  | nil =>
    simp only [runChecksMap, Except.ok.injEq, Prod.mk.injEq] at h
    obtain ⟨rfl, rfl⟩ := h
    rfl
  | cons p rest ih =>
    obtain ⟨k, ch⟩ := p
    cases hrc : ch.run_checks alive aw with
    | error e => simp [runChecksMap, hrc] at h
    | ok val =>
      obtain ⟨ch', keep, new0⟩ := val
      cases hrm : runChecksMap alive aw rest with
      | error e => simp [runChecksMap, hrc, hrm] at h
      | ok val2 =>
        obtain ⟨rest', newr⟩ := val2
        have hrec := ih _ _ hrm
        obtain ⟨hch', hcase⟩ := run_checks_ok_cases ch alive aw ch' keep new0 hrc
        have htx' : ch'.tx = ch.tx := by rw [hch']
        rcases hcase with ⟨hk, hn, _⟩ | ⟨hk, hn, _, _, _⟩ <;> subst hk <;> subst hn
        · simp only [runChecksMap, hrc, hrm, reduceIte, Except.ok.injEq,
            Prod.mk.injEq] at h
          obtain ⟨rfl, rfl⟩ := h
          simp only [txList, List.map_cons, List.count_cons, List.count_append,
            List.nil_append, htx', beq_iff_eq]
          simp only [txList] at hrec
          by_cases hif : ch.tx = a
          · simp only [if_pos hif]
            omega
          · simp only [if_neg hif]
            omega
        · simp only [runChecksMap, hrc, hrm, reduceIte, Except.ok.injEq,
            Prod.mk.injEq] at h
          obtain ⟨rfl, rfl⟩ := h
          simp only [txList, List.map_cons, List.count_cons, List.count_append,
            List.cons_append, List.nil_append, beq_iff_eq]
          simp only [txList] at hrec
          by_cases hif : ch.tx = a
          · simp only [if_pos hif]
            omega
          · simp only [if_neg hif]
            omega

theorem runChecksMap_keyList_count (alive : Nat → Bool) (aw : Action)
    (cks cks' : List (ZomeFnCall × CallFxChecker)) (new : List Nat)
    (h : runChecksMap alive aw cks = .ok (cks', new)) (a : ZomeFnCall) :
    (keyList cks').count a ≤ (keyList cks).count a := by
  induction cks generalizing cks' new with
  | nil =>
    simp only [runChecksMap, Except.ok.injEq, Prod.mk.injEq] at h
    obtain ⟨rfl, rfl⟩ := h
    simp
  | cons p rest ih =>
    obtain ⟨k, ch⟩ := p
    cases hrc : ch.run_checks alive aw with
    | error e => simp [runChecksMap, hrc] at h
    | ok val =>
      obtain ⟨ch', keep, new0⟩ := val
      cases hrm : runChecksMap alive aw rest with
      | error e => simp [runChecksMap, hrc, hrm] at h
      | ok val2 =>
        obtain ⟨rest', newr⟩ := val2
        have hrec := ih _ _ hrm
        cases keep
        · simp only [runChecksMap, hrc, hrm, reduceIte, Except.ok.injEq,
            Prod.mk.injEq] at h
          obtain ⟨rfl, rfl⟩ := h
          refine le_trans hrec ?_
          simp only [keyList, List.map_cons, List.count_cons]
          omega
        · simp only [runChecksMap, hrc, hrm, reduceIte, Except.ok.injEq,
            Prod.mk.injEq] at h
          obtain ⟨rfl, rfl⟩ := h
          simp only [keyList, List.map_cons, List.count_cons]
          simp only [keyList] at hrec
          omega

theorem runChecksMap_inv (alive : Nat → Bool) (aw : Action)
    (cks cks' : List (ZomeFnCall × CallFxChecker)) (new : List Nat)
    (h : runChecksMap alive aw cks = .ok (cks', new))
    (hInv : ∀ p ∈ cks, p.2.conditions ≠ []) :
    ∀ p ∈ cks', p.2.conditions ≠ [] := by
  induction cks generalizing cks' new with
  | nil =>
    simp only [runChecksMap, Except.ok.injEq, Prod.mk.injEq] at h
    obtain ⟨rfl, rfl⟩ := h
    simp
  | cons p rest ih =>
    obtain ⟨k, ch⟩ := p
    cases hrc : ch.run_checks alive aw with
    | error e => simp [runChecksMap, hrc] at h
    | ok val =>
      obtain ⟨ch', keep, new0⟩ := val
      cases hrm : runChecksMap alive aw rest with
      | error e => simp [runChecksMap, hrc, hrm] at h
      | ok val2 =>
        obtain ⟨rest', newr⟩ := val2
        have hrest : ∀ p ∈ rest, p.2.conditions ≠ [] :=
          fun p hp => hInv p (List.mem_cons_of_mem _ hp)
        have hrec := ih _ _ hrm hrest
        obtain ⟨hch', hcase⟩ := run_checks_ok_cases ch alive aw ch' keep new0 hrc
        rcases hcase with ⟨hk, hn, hkind⟩ | ⟨hk, hn, _, _, _⟩ <;> subst hk <;> subst hn
        · simp only [runChecksMap, hrc, hrm, reduceIte, Except.ok.injEq,
            Prod.mk.injEq] at h
          obtain ⟨rfl, rfl⟩ := h
          intro p hp
          rcases List.mem_cons.mp hp with heq | hmem
          · subst heq
            rcases hkind with hnil | hne
            · exact absurd hnil (hInv (k, ch) (List.mem_cons_self _ _))
            · rw [hch']
              exact hne
          · exact hrec p hmem
        · simp only [runChecksMap, hrc, hrm, reduceIte, Except.ok.injEq,
            Prod.mk.injEq] at h
          obtain ⟨rfl, rfl⟩ := h
          exact hrec

theorem runChecksMap_mem (alive : Nat → Bool) (aw : Action)
    (cks cks' : List (ZomeFnCall × CallFxChecker)) (new : List Nat)
    (h : runChecksMap alive aw cks = .ok (cks', new))
    (k : ZomeFnCall) (ch : CallFxChecker) (hm : (k, ch) ∈ cks) :
    ch.tx ∈ new ∨ ∃ ch', (k, ch') ∈ cks' ∧ ch'.tx = ch.tx ∧
      ch'.conditions = ch.conditions.filter fun c => !c.satisfiedBy aw := by
  induction cks generalizing cks' new with
  | nil => cases hm
  | cons p rest ih =>
    obtain ⟨k0, ch0⟩ := p
    cases hrc : ch0.run_checks alive aw with
    | error e => simp [runChecksMap, hrc] at h
    | ok val =>
      obtain ⟨ch0', keep, new0⟩ := val
      cases hrm : runChecksMap alive aw rest with
      | error e => simp [runChecksMap, hrc, hrm] at h
      | ok val2 =>
        obtain ⟨rest', newr⟩ := val2
        obtain ⟨hch', hcase⟩ := run_checks_ok_cases ch0 alive aw ch0' keep new0 hrc
        rcases hcase with ⟨hk, hn, _⟩ | ⟨hk, hn, _, _, _⟩ <;> subst hk <;> subst hn <;>
          simp only [runChecksMap, hrc, hrm, reduceIte, Except.ok.injEq,
            Prod.mk.injEq] at h <;> obtain ⟨rfl, rfl⟩ := h
        · rcases List.mem_cons.mp hm with heq | hmem
          · injection heq with h1 h2
            subst h1; subst h2
            exact Or.inr ⟨ch0', List.mem_cons_self _ _, by rw [hch'], by rw [hch']⟩
          · rcases ih _ _ hrm hmem with hl | ⟨chx, hx1, hx2, hx3⟩
            · exact Or.inl (by simpa using hl)
            · exact Or.inr ⟨chx, List.mem_cons_of_mem _ hx1, hx2, hx3⟩
        · rcases List.mem_cons.mp hm with heq | hmem
          · injection heq with h1 h2
            subst h1; subst h2
            exact Or.inl (by simp)
          · rcases ih _ _ hrm hmem with hl | ⟨chx, hx1, hx2, hx3⟩
            · exact Or.inl (by simp [hl])
            · exact Or.inr ⟨chx, hx1, hx2, hx3⟩

theorem runChecksMap_mem_rev (alive : Nat → Bool) (aw : Action)
    (cks cks' : List (ZomeFnCall × CallFxChecker)) (new : List Nat)
    (h : runChecksMap alive aw cks = .ok (cks', new))
    (k : ZomeFnCall) (ch' : CallFxChecker) (hm : (k, ch') ∈ cks') :
    ∃ ch, (k, ch) ∈ cks ∧ ch.tx = ch'.tx ∧
      ch'.conditions = ch.conditions.filter fun c => !c.satisfiedBy aw := by
  induction cks generalizing cks' new with
  | nil =>
    simp only [runChecksMap, Except.ok.injEq, Prod.mk.injEq] at h
    obtain ⟨rfl, rfl⟩ := h
    cases hm
  | cons p rest ih =>
    obtain ⟨k0, ch0⟩ := p
    cases hrc : ch0.run_checks alive aw with
    | error e => simp [runChecksMap, hrc] at h
    | ok val =>
      obtain ⟨ch0', keep, new0⟩ := val
      cases hrm : runChecksMap alive aw rest with
      | error e => simp [runChecksMap, hrc, hrm] at h
      | ok val2 =>
        obtain ⟨rest', newr⟩ := val2
        obtain ⟨hch', hcase⟩ := run_checks_ok_cases ch0 alive aw ch0' keep new0 hrc
        rcases hcase with ⟨hk, hn, _⟩ | ⟨hk, hn, _, _, _⟩ <;> subst hk <;> subst hn <;>
          simp only [runChecksMap, hrc, hrm, reduceIte, Except.ok.injEq,
            Prod.mk.injEq] at h <;> obtain ⟨rfl, rfl⟩ := h
        · rcases List.mem_cons.mp hm with heq | hmem
          · injection heq with h1 h2
            subst h1; subst h2
            exact ⟨ch0, List.mem_cons_self _ _, by rw [hch'], by rw [hch']⟩
          · obtain ⟨chx, hx1, hx2, hx3⟩ := ih _ _ hrm hmem
            exact ⟨chx, List.mem_cons_of_mem _ hx1, hx2, hx3⟩
        · obtain ⟨chx, hx1, hx2, hx3⟩ := ih _ _ hrm hm
          exact ⟨chx, List.mem_cons_of_mem _ hx1, hx2, hx3⟩

theorem runChecksMap_fire_mem (alive : Nat → Bool) (aw : Action)
    (cks cks' : List (ZomeFnCall × CallFxChecker)) (new : List Nat)
    (h : runChecksMap alive aw cks = .ok (cks', new))
    (k : ZomeFnCall) (ch : CallFxChecker) (hm : (k, ch) ∈ cks)
    (hne : ch.conditions ≠ [])
    (hf : ch.conditions.filter (fun c => !c.satisfiedBy aw) = []) :
    ch.tx ∈ new := by
  induction cks generalizing cks' new with
  | nil => cases hm
  | cons p rest ih =>
    obtain ⟨k0, ch0⟩ := p
    cases hrc : ch0.run_checks alive aw with
    | error e => simp [runChecksMap, hrc] at h
    | ok val =>
      obtain ⟨ch0', keep, new0⟩ := val
      cases hrm : runChecksMap alive aw rest with
      | error e => simp [runChecksMap, hrc, hrm] at h
      | ok val2 =>
        obtain ⟨rest', newr⟩ := val2
        obtain ⟨hch', hcase⟩ := run_checks_ok_cases ch0 alive aw ch0' keep new0 hrc
        rcases hcase with ⟨hk, hn, hkind⟩ | ⟨hk, hn, _, _, _⟩ <;> subst hk <;> subst hn <;>
          simp only [runChecksMap, hrc, hrm, reduceIte, Except.ok.injEq,
            Prod.mk.injEq] at h <;> obtain ⟨rfl, rfl⟩ := h
        · rcases List.mem_cons.mp hm with heq | hmem
          · injection heq with h1 h2
            subst h1; subst h2
            rcases hkind with hnil | hnef
            · exact absurd hnil hne
            · exact absurd hf hnef
          · simpa using ih _ _ hrm hmem
        · rcases List.mem_cons.mp hm with heq | hmem
          · injection heq with h1 h2
            subst h1; subst h2
            simp
          · have hmemn := ih _ _ hrm hmem
            simp [hmemn]

theorem runChecksMap_fire_key_gone (alive : Nat → Bool) (aw : Action)
    (cks cks' : List (ZomeFnCall × CallFxChecker)) (new : List Nat)
    (h : runChecksMap alive aw cks = .ok (cks', new))
    (k : ZomeFnCall) (ch : CallFxChecker)
    (hkc : (keyList cks).count k ≤ 1) (hm : (k, ch) ∈ cks)
    (hne : ch.conditions ≠ [])
    (hf : ch.conditions.filter (fun c => !c.satisfiedBy aw) = []) :
    k ∉ keyList cks' := by
  induction cks generalizing cks' new with
  | nil => cases hm
  | cons p rest ih =>
    obtain ⟨k0, ch0⟩ := p
    have hkeys : (keyList ((k0, ch0) :: rest)).count k =
        (keyList rest).count k + (if k0 = k then 1 else 0) := by
      simp [keyList, List.count_cons]
    cases hrc : ch0.run_checks alive aw with
    | error e => simp [runChecksMap, hrc] at h
    | ok val =>
      obtain ⟨ch0', keep, new0⟩ := val
      cases hrm : runChecksMap alive aw rest with
      | error e => simp [runChecksMap, hrc, hrm] at h
      | ok val2 =>
        obtain ⟨rest', newr⟩ := val2
        obtain ⟨hch', hcase⟩ := run_checks_ok_cases ch0 alive aw ch0' keep new0 hrc
        by_cases hk0 : k0 = k
        · -- the head is the unique entry with key k, so it is our entry
          have hrest0 : (keyList rest).count k = 0 := by
            rw [hkeys] at hkc
            simp only [if_pos hk0] at hkc
            omega
          have hknotin : k ∉ keyList rest := List.count_eq_zero.mp hrest0
          have hch : ch = ch0 := by
            rcases List.mem_cons.mp hm with heq | hmem'
            · exact congrArg Prod.snd heq
            · exact absurd (by simpa [keyList] using
                List.mem_map_of_mem Prod.fst hmem') hknotin
          subst hch
          rcases hcase with ⟨hk, hn, hkind⟩ | ⟨hk, hn, _, _, _⟩
          · rcases hkind with hnil | hnef
            · exact absurd hnil hne
            · exact absurd hf hnef
          · subst hk; subst hn
            simp only [runChecksMap, hrc, hrm, reduceIte, Except.ok.injEq,
              Prod.mk.injEq] at h
            obtain ⟨rfl, rfl⟩ := h
            intro hmem'
            have := runChecksMap_keyList_count alive aw rest _ _ hrm k
            have : 0 < (keyList rest).count k := by
              have hp := List.count_pos_iff.mpr hmem'
              omega
            omega
        · have hmem' : (k, ch) ∈ rest := by
            rcases List.mem_cons.mp hm with heq | hmem'
            · exact absurd (congrArg Prod.fst heq).symm hk0
            · exact hmem'
          have hkc' : (keyList rest).count k ≤ 1 := by
            rw [hkeys] at hkc
            simp only [if_neg hk0] at hkc
            omega
          rcases hcase with ⟨hk, hn, _⟩ | ⟨hk, hn, _, _, _⟩ <;> subst hk <;> subst hn <;>
            simp only [runChecksMap, hrc, hrm, reduceIte, Except.ok.injEq,
              Prod.mk.injEq] at h <;> obtain ⟨rfl, rfl⟩ := h
          · intro hmem2
            rcases by simpa [keyList] using hmem2 with heq | hmem3
            · exact hk0 heq.symm
            · exact ih _ _ hrm hkc' hmem' (by simpa [keyList] using hmem3)
          · exact ih _ _ hrm hkc' hmem'

theorem runChecksMap_error (alive : Nat → Bool) (aw : Action)
    (cks : List (ZomeFnCall × CallFxChecker))
    (k : ZomeFnCall) (ch : CallFxChecker) (hm : (k, ch) ∈ cks)
    (hne : ch.conditions ≠ [])
    (hf : ch.conditions.filter (fun c => !c.satisfiedBy aw) = [])
    (hdead : alive ch.tx = false) :
    runChecksMap alive aw cks = .error () := by
  induction cks with
  | nil => cases hm
  | cons p rest ih =>
    obtain ⟨k0, ch0⟩ := p
    rcases List.mem_cons.mp hm with heq | hmem
    · injection heq with h1 h2
      subst h1; subst h2
      have hpanic := run_checks_panics ch alive aw hne hf hdead
      simp [runChecksMap, hpanic]
    · cases hrc : ch0.run_checks alive aw with
      | error e => simp [runChecksMap, hrc]
      | ok val =>
        obtain ⟨ch0', keep, new0⟩ := val
        have hrest := ih hmem
        simp [runChecksMap, hrc, hrest]

theorem runChecksMap_noop (alive : Nat → Bool) (aw : Action)
    (cks : List (ZomeFnCall × CallFxChecker))
    (hnone : ∀ cond : CallFxCondition, cond.satisfiedBy aw = false) :
    runChecksMap alive aw cks = .ok (cks, []) := by
  induction cks with
  | nil => rfl
  | cons p rest ih =>
    obtain ⟨k, ch⟩ := p
    have hfilter : ch.conditions.filter (fun c => !c.satisfiedBy aw) = ch.conditions :=
      List.filter_eq_self.mpr fun a _ => by simp [hnone a]
    have hrc : ch.run_checks alive aw = .ok (ch, true, []) := by
      dsimp only [CallFxChecker.run_checks]
      rw [hfilter]
      simp [Bool.and_not_self]
    simp [runChecksMap, hrc, ih]

theorem runChecksMap_Q (alive : Nat → Bool) (aw : Action)
    (cks cks' : List (ZomeFnCall × CallFxChecker)) (new : List Nat)
    (h : runChecksMap alive aw cks = .ok (cks', new))
    (t : Nat) (cond0 : CallFxCondition)
    (hQ : ∀ k ch, (k, ch) ∈ cks → ch.tx = t → cond0 ∈ ch.conditions)
    (hns : cond0.satisfiedBy aw = false) :
    t ∉ new ∧ ∀ k ch', (k, ch') ∈ cks' → ch'.tx = t → cond0 ∈ ch'.conditions := by
  induction cks generalizing cks' new with
  | nil =>
    simp only [runChecksMap, Except.ok.injEq, Prod.mk.injEq] at h
    obtain ⟨rfl, rfl⟩ := h
    exact ⟨by simp, by simp⟩
  | cons p rest ih =>
    obtain ⟨k0, ch0⟩ := p
    cases hrc : ch0.run_checks alive aw with
    | error e => simp [runChecksMap, hrc] at h
    | ok val =>
      obtain ⟨ch0', keep, new0⟩ := val
      cases hrm : runChecksMap alive aw rest with
      | error e => simp [runChecksMap, hrc, hrm] at h
      | ok val2 =>
        obtain ⟨rest', newr⟩ := val2
        have hQrest : ∀ k ch, (k, ch) ∈ rest → ch.tx = t → cond0 ∈ ch.conditions :=
          fun k ch hk ht => hQ k ch (List.mem_cons_of_mem _ hk) ht
        have hrec := ih _ _ hrm hQrest
        obtain ⟨hch', hcase⟩ := run_checks_ok_cases ch0 alive aw ch0' keep new0 hrc
        rcases hcase with ⟨hk, hn, _⟩ | ⟨hk, hn, _, hne0, hf0⟩ <;> subst hk <;> subst hn <;>
          simp only [runChecksMap, hrc, hrm, reduceIte, Except.ok.injEq,
            Prod.mk.injEq] at h <;> obtain ⟨rfl, rfl⟩ := h
        · refine ⟨by simpa using hrec.1, ?_⟩
          intro k ch' hk ht
          rcases List.mem_cons.mp hk with heq | hmem
          · injection heq with h1 h2
            subst h1; subst h2
            have htx0 : ch0.tx = t := by
              rw [hch'] at ht
              exact ht
            have hc0 : cond0 ∈ ch0.conditions :=
              hQ k ch0 (List.mem_cons_self _ _) htx0
            rw [hch']
            exact List.mem_filter.mpr ⟨hc0, by simp [hns]⟩
          · exact hrec.2 k ch' hmem ht
        · have htx0 : ch0.tx ≠ t := by
            intro hEq
            have hc0 : cond0 ∈ ch0.conditions :=
              hQ k0 ch0 (List.mem_cons_self _ _) hEq
            have : cond0 ∈ ch0.conditions.filter (fun c => !c.satisfiedBy aw) :=
              List.mem_filter.mpr ⟨hc0, by simp [hns]⟩
            rw [hf0] at this
            cases this
          refine ⟨?_, hrec.2⟩
          intro hmem
          rcases by simpa using hmem with heq | hmem2
          · exact htx0 heq.symm
          · exact hrec.1 hmem2

/-! ## Lemmas about the attribution phase -/

theorem execute_attribution (w : Waiter) (call : ZomeFnCall) (t : Nat)
    (q : List Nat) (hq : w.sender_rx = t :: q) :
    w.attribution (.ExecuteZomeFunction call) =
      ⟨addCond (insertChecker w.checkers call (CallFxChecker.new t)) call
        (.awaitReturn call), some call, q⟩ := by
  simp [Waiter.attribution, hq, Waiter.add_call]

theorem execute_attribution_empty (w : Waiter) (call : ZomeFnCall)
    (hq : w.sender_rx = []) :
    w.attribution (.ExecuteZomeFunction call) = { w with current := none } := by
  simp [Waiter.attribution, hq, Waiter.deactivate_current]

theorem insertAdd_mem_rev (cks : List (ZomeFnCall × CallFxChecker))
    (c : ZomeFnCall) (t : Nat) (cond : CallFxCondition) (k : ZomeFnCall)
    (ch' : CallFxChecker)
    (h : (k, ch') ∈ addCond (insertChecker cks c (CallFxChecker.new t)) c cond) :
    (k, ch') ∈ cks ∨ ch' = ⟨t, [cond]⟩ := by
  induction cks with
  | nil =>
    simp only [insertChecker, addCond, beq_self_eq_true, if_true,
      List.mem_singleton] at h
    exact Or.inr (by simpa [CallFxChecker.new] using congrArg Prod.snd h)
  | cons p rest ih =>
    obtain ⟨k0, ch0⟩ := p
    by_cases hk : k0 = c
    · simp only [insertChecker, beq_iff_eq, hk, if_true, addCond,
      List.mem_cons] at h
      rcases h with heq | hmem
      · exact Or.inr (by simpa [CallFxChecker.new] using congrArg Prod.snd heq)
      · exact Or.inl (List.mem_cons_of_mem _ hmem)
    · simp only [insertChecker, beq_iff_eq, hk, if_false, addCond,
        List.mem_cons] at h
      rcases h with heq | hmem
      · exact Or.inl (heq ▸ List.mem_cons_self _ _)
      · rcases ih hmem with h' | h'
        · exact Or.inl (List.mem_cons_of_mem _ h')
        · exact Or.inr h'

theorem insertAdd_lookup (cks : List (ZomeFnCall × CallFxChecker))
    (c : ZomeFnCall) (t : Nat) (cond : CallFxCondition) :
    lookupChecker (addCond (insertChecker cks c (CallFxChecker.new t)) c cond) c =
      some ⟨t, [cond]⟩ := by
  induction cks with
  | nil => simp [insertChecker, addCond, lookupChecker, CallFxChecker.new]
  | cons p rest ih =>
    obtain ⟨k0, ch0⟩ := p
    by_cases hk : k0 = c
    · simp [insertChecker, addCond, lookupChecker, hk, CallFxChecker.new]
    · simpa [insertChecker, addCond, lookupChecker, hk] using ih

theorem insertAdd_txList_count (cks : List (ZomeFnCall × CallFxChecker))
    (c : ZomeFnCall) (t : Nat) (cond : CallFxCondition) (a : Nat) :
    (txList (addCond (insertChecker cks c (CallFxChecker.new t)) c cond)).count a ≤
      (txList cks).count a + (if a = t then 1 else 0) := by
  rw [addCond_txList]
  exact insertChecker_txList_count cks c (CallFxChecker.new t) a

theorem attribution_sends_count (w : Waiter) (aw : Action) (a : Nat) :
    (txList (w.attribution aw).checkers).count a +
        ((w.attribution aw).sender_rx).count a ≤
      (txList w.checkers).count a + (w.sender_rx).count a := by
  cases aw with
  | ExecuteZomeFunction call =>
    cases hq : w.sender_rx with
    | nil =>
      rw [execute_attribution_empty w call hq]
      dsimp only
      rw [hq]
    | cons t q =>
      rw [execute_attribution w call t q hq]
      dsimp only
      have h1 := insertAdd_txList_count w.checkers call t (.awaitReturn call) a
      have h2 : (t :: q).count a = q.count a + (if t = a then 1 else 0) := by
        simp [List.count_cons]
      by_cases hat : a = t
      · subst hat
        simp only [if_pos rfl] at h1 h2
        omega
      · simp only [if_neg hat, if_neg (Ne.symm hat)] at h1 h2
        omega
  | Commit entry =>
    dsimp only [Waiter.attribution]
    cases hc : w.current with
    | none => simp
    | some c =>
      cases hl : lookupChecker w.checkers c with
      | none => simp [hl]
      | some ch => simp [hl, addCond_txList]
  | SendDirectMessage data =>
    dsimp only [Waiter.attribution]
    cases hc : w.current with
    | none => simp
    | some c =>
      cases hm : data.message with
      | Custom payload =>
        cases hl : lookupChecker w.checkers c with
        | none => simp [hl]
        | some ch => simp [hl, addCond_txList]
      | Other tag => simp
  | ReturnZomeFunctionResult call => exact le_refl _
  | Hold entry => exact le_refl _
  | ResolveDirectConnection m => exact le_refl _
  | SendDirectMessageTimeout m => exact le_refl _
  | OtherAction tag => exact le_refl _

theorem attribution_WFkeys (w : Waiter) (aw : Action) (hk : WFkeys w) :
    ∀ a, (keyList (w.attribution aw).checkers).count a ≤ 1 := by
  intro a
  cases aw with
  | ExecuteZomeFunction call =>
    cases hq : w.sender_rx with
    | nil => rw [execute_attribution_empty w call hq]; exact hk a
    | cons t q =>
      rw [execute_attribution w call t q hq]
      dsimp only
      rw [addCond_keyList, insertChecker_keyList]
      split
      · exact hk a
      · have := hk a
        by_cases hac : a = call
        · subst hac
          have hz : (keyList w.checkers).count a = 0 := by
            rw [List.count_eq_zero]
            next hnotin => exact hnotin
          simp [List.count_append, hz, List.count_cons]
        · simp [List.count_append, List.count_cons, Ne.symm hac]
          exact hk a
  | Commit entry =>
    dsimp only [Waiter.attribution]
    cases hc : w.current with
    | none => exact hk a
    | some c =>
      cases hl : lookupChecker w.checkers c with
      | none => simpa [hl] using hk a
      | some ch => simpa [hl, addCond_keyList] using hk a
  | SendDirectMessage data =>
    dsimp only [Waiter.attribution]
    cases hc : w.current with
    | none => exact hk a
    | some c =>
      cases hm : data.message with
      | Custom payload =>
        cases hl : lookupChecker w.checkers c with
        | none => simpa [hl] using hk a
        | some ch => simpa [hl, addCond_keyList] using hk a
      | Other tag => exact hk a
  | ReturnZomeFunctionResult call => exact hk a
  | Hold entry => exact hk a
  | ResolveDirectConnection m => exact hk a
  | SendDirectMessageTimeout m => exact hk a
  | OtherAction tag => exact hk a

/-- The attribution phase changes the map in one of exactly three ways:
not at all, by appending one condition to one existing entry, or (for
`ExecuteZomeFunction` with a pending sender) by inserting a fresh
single-condition checker built from the head of the registration queue. -/
theorem attribution_shape (w : Waiter) (aw : Action) :
    ((w.attribution aw).checkers = w.checkers ∧
      (w.attribution aw).sender_rx = w.sender_rx) ∨
    ((∃ c' cond, (w.attribution aw).checkers = addCond w.checkers c' cond) ∧
      (w.attribution aw).sender_rx = w.sender_rx) ∨
    (∃ call t' q, aw = .ExecuteZomeFunction call ∧ w.sender_rx = t' :: q ∧
      (w.attribution aw).checkers =
        addCond (insertChecker w.checkers call (CallFxChecker.new t')) call
          (.awaitReturn call) ∧
      (w.attribution aw).sender_rx = q) := by
  cases aw with
  | ExecuteZomeFunction call =>
    cases hq : w.sender_rx with
    | nil =>
      rw [execute_attribution_empty w call hq]
      exact Or.inl ⟨rfl, hq⟩
    | cons t q =>
      rw [execute_attribution w call t q hq]
      exact Or.inr (Or.inr ⟨call, t, q, rfl, rfl, rfl, rfl⟩)
  | Commit entry =>
    dsimp only [Waiter.attribution]
    cases hc : w.current with
    | none => exact Or.inl ⟨rfl, rfl⟩
    | some c =>
      cases hl : lookupChecker w.checkers c with
      | none => simp [hl]
      | some ch =>
        simp only [hl]
        exact Or.inr (Or.inl ⟨⟨c, .awaitHold entry, rfl⟩, by trivial⟩)
  | SendDirectMessage data =>
    dsimp only [Waiter.attribution]
    cases hc : w.current with
    | none => exact Or.inl ⟨rfl, rfl⟩
    | some c =>
      cases hm : data.message with
      | Custom payload =>
        cases hl : lookupChecker w.checkers c with
        | none => simp [hl]
        | some ch =>
          simp only [hl]
          exact Or.inr (Or.inl ⟨⟨c, .awaitPeerOutcome data.msg_id, rfl⟩, by trivial⟩)
      | Other tag => exact Or.inl ⟨rfl, rfl⟩
  | ReturnZomeFunctionResult call => exact Or.inl ⟨rfl, rfl⟩
  | Hold entry => exact Or.inl ⟨rfl, rfl⟩
  | ResolveDirectConnection m => exact Or.inl ⟨rfl, rfl⟩
  | SendDirectMessageTimeout m => exact Or.inl ⟨rfl, rfl⟩
  | OtherAction tag => exact Or.inl ⟨rfl, rfl⟩

theorem attribution_mem (w : Waiter) (aw : Action) (c : ZomeFnCall)
    (ch : CallFxChecker) (hm : (c, ch) ∈ w.checkers)
    (hne : aw = Action.ExecuteZomeFunction c → w.sender_rx = []) :
    ∃ chA, (c, chA) ∈ (w.attribution aw).checkers ∧ chA.tx = ch.tx := by
  rcases attribution_shape w aw with ⟨h1, _⟩ | ⟨⟨c', cond, h1⟩, _⟩ |
      ⟨call, t', q, haw, hq, h1, _⟩
  · exact ⟨ch, h1 ▸ hm, rfl⟩
  · obtain ⟨ch', hx1, hx2, _⟩ := addCond_mem w.checkers c' cond c ch hm
    exact ⟨ch', h1 ▸ hx1, hx2⟩
  · have hcc : c ≠ call := by
      intro hEq
      rw [hne (by rw [haw, hEq])] at hq
      cases hq
    have hins : (c, ch) ∈ insertChecker w.checkers call (CallFxChecker.new t') :=
      insertChecker_mem_of_ne w.checkers call (CallFxChecker.new t') c ch hcc hm
    obtain ⟨ch', hx1, hx2, _⟩ :=
      addCond_mem (insertChecker w.checkers call (CallFxChecker.new t')) call
        (.awaitReturn call) c ch hins
    exact ⟨ch', h1 ▸ hx1, hx2⟩

theorem attribution_inv (w : Waiter) (aw : Action)
    (hInv : ∀ p ∈ w.checkers, p.2.conditions ≠ []) :
    ∀ p ∈ (w.attribution aw).checkers, p.2.conditions ≠ [] := by
  rcases attribution_shape w aw with ⟨h1, _⟩ | ⟨⟨c', cond, h1⟩, _⟩ |
      ⟨call, t', q, haw, hq, h1, _⟩ <;> rw [h1] <;> rintro ⟨k, ch'⟩ hp
  · exact hInv _ hp
  · obtain ⟨ch, hx1, _, hx3⟩ := addCond_mem_rev w.checkers c' cond k ch' hp
    rcases hx3 with hsame | happ
    · dsimp only
      rw [hsame]
      exact hInv _ hx1
    · dsimp only
      rw [happ]
      simp
  · rcases insertAdd_mem_rev w.checkers call t' (.awaitReturn call) k ch' hp with
      hx | hx
    · exact hInv _ hx
    · rw [hx]
      simp

theorem attribution_Q (w : Waiter) (aw : Action) (t : Nat)
    (cond0 : CallFxCondition)
    (hQ1 : ∀ k ch, (k, ch) ∈ w.checkers → ch.tx = t → cond0 ∈ ch.conditions)
    (hQ2 : t ∉ w.sender_rx) :
    (∀ k ch, (k, ch) ∈ (w.attribution aw).checkers → ch.tx = t →
      cond0 ∈ ch.conditions) ∧ t ∉ (w.attribution aw).sender_rx := by
  rcases attribution_shape w aw with ⟨h1, h2⟩ | ⟨⟨c', cond, h1⟩, h2⟩ |
      ⟨call, t', q, haw, hq, h1, h2⟩
  · rw [h1, h2]
    exact ⟨hQ1, hQ2⟩
  · rw [h1, h2]
    refine ⟨?_, hQ2⟩
    intro k ch' hp ht
    obtain ⟨ch, hx1, hx2, hx3⟩ := addCond_mem_rev w.checkers c' cond k ch' hp
    have hc0 : cond0 ∈ ch.conditions := hQ1 k ch hx1 (hx2.trans ht)
    rcases hx3 with hsame | happ
    · rw [hsame]; exact hc0
    · rw [happ]; exact List.mem_append_left _ hc0
  · rw [h1, h2]
    rw [hq] at hQ2
    refine ⟨?_, fun hmem => hQ2 (List.mem_cons_of_mem _ hmem)⟩
    intro k ch' hp ht
    rcases insertAdd_mem_rev w.checkers call t' (.awaitReturn call) k ch' hp with
      hx | hx
    · exact hQ1 k ch' hx ht
    · exfalso
      rw [hx] at ht
      exact hQ2 (ht ▸ List.mem_cons_self _ _)

/-! ## Step lemmas for process_signal -/

theorem process_signal_ok_shape (alive : Nat → Bool) (w : Waiter) (aw : Action)
    (w' : Waiter) (new : List Nat)
    (h : w.process_signal alive (.Internal aw) = .ok (w', new)) :
    ∃ cks, runChecksMap alive aw (w.attribution aw).checkers = .ok (cks, new) ∧
      w' = ⟨cks, (w.attribution aw).current, (w.attribution aw).sender_rx⟩ := by
  dsimp only [Waiter.process_signal, Waiter.run_checks] at h
  cases hrm : runChecksMap alive aw (w.attribution aw).checkers with
  | error e => rw [hrm] at h; cases h
  | ok val =>
    obtain ⟨cks, nw⟩ := val
    rw [hrm] at h
    simp only [Except.map, Except.ok.injEq, Prod.mk.injEq] at h
    obtain ⟨h1, h2⟩ := h
    subst h2
    exact ⟨cks, rfl, h1.symm⟩

theorem process_signal_WF (alive : Nat → Bool) (w : Waiter) (sig : Signal)
    (sends : List Nat) (w' : Waiter) (new : List Nat)
    (hWF : WFsenders w sends) (hkeys : WFkeys w)
    (h : w.process_signal alive sig = .ok (w', new)) :
    WFsenders w' (sends ++ new) ∧ WFkeys w' := by
  cases sig with
  | OtherSignal tag =>
    simp only [Waiter.process_signal, Except.ok.injEq, Prod.mk.injEq] at h
    obtain ⟨rfl, rfl⟩ := h
    exact ⟨fun a => by simpa using hWF a, hkeys⟩
  | Internal aw =>
    obtain ⟨cks, hrm, rfl⟩ := process_signal_ok_shape alive w aw w' new h
    constructor
    · intro a
      show (sends ++ new).count a + (txList cks).count a +
        ((w.attribution aw).sender_rx).count a ≤ 1
      have h1 := runChecksMap_count alive aw _ _ _ hrm a
      have h2 := attribution_sends_count w aw a
      have h3 := hWF a
      simp only [List.count_append]
      omega
    · intro a
      show (keyList cks).count a ≤ 1
      have h1 := runChecksMap_keyList_count alive aw _ _ _ hrm a
      have h2 := attribution_WFkeys w aw hkeys a
      omega

theorem process_signal_notin (alive : Nat → Bool) (w : Waiter) (sig : Signal)
    (w' : Waiter) (new : List Nat) (t : Nat)
    (h : w.process_signal alive sig = .ok (w', new))
    (ht1 : t ∉ txList w.checkers) (ht2 : t ∉ w.sender_rx) :
    t ∉ new ∧ t ∉ txList w'.checkers ∧ t ∉ w'.sender_rx := by
  cases sig with
  | OtherSignal tag =>
    simp only [Waiter.process_signal, Except.ok.injEq, Prod.mk.injEq] at h
    obtain ⟨rfl, rfl⟩ := h
    exact ⟨by simp, ht1, ht2⟩
  | Internal aw =>
    obtain ⟨cks, hrm, rfl⟩ := process_signal_ok_shape alive w aw w' new h
    have h1 := runChecksMap_count alive aw _ _ _ hrm t
    have h2 := attribution_sends_count w aw t
    have hz1 : (txList w.checkers).count t = 0 := List.count_eq_zero.mpr ht1
    have hz2 : (w.sender_rx).count t = 0 := List.count_eq_zero.mpr ht2
    have hc1 : new.count t = 0 := by omega
    have hc2 : (txList cks).count t = 0 := by omega
    have hc3 : ((w.attribution aw).sender_rx).count t = 0 := by omega
    exact ⟨List.count_eq_zero.mp hc1, List.count_eq_zero.mp hc2,
      List.count_eq_zero.mp hc3⟩

theorem process_signal_persist (alive : Nat → Bool) (w : Waiter) (sig : Signal)
    (w' : Waiter) (new : List Nat) (c : ZomeFnCall) (ch : CallFxChecker) (t : Nat)
    (h : w.process_signal alive sig = .ok (w', new))
    (hm : (c, ch) ∈ w.checkers) (htx : ch.tx = t)
    (hnr : sig = Signal.Internal (Action.ExecuteZomeFunction c) →
      w.sender_rx = []) :
    t ∈ new ∨ ∃ ch', (c, ch') ∈ w'.checkers ∧ ch'.tx = t := by
  cases sig with
  | OtherSignal tag =>
    simp only [Waiter.process_signal, Except.ok.injEq, Prod.mk.injEq] at h
    obtain ⟨rfl, rfl⟩ := h
    exact Or.inr ⟨ch, hm, htx⟩
  | Internal aw =>
    obtain ⟨cks, hrm, rfl⟩ := process_signal_ok_shape alive w aw w' new h
    have hne : aw = Action.ExecuteZomeFunction c → w.sender_rx = [] := by
      intro haw
      exact hnr (by rw [haw])
    obtain ⟨chA, hA1, hA2⟩ := attribution_mem w aw c ch hm hne
    rcases runChecksMap_mem alive aw _ _ _ hrm c chA hA1 with hl | ⟨ch2, hx1, hx2, _⟩
    · exact Or.inl ((hA2.trans htx) ▸ hl)
    · exact Or.inr ⟨ch2, hx1, (hx2.trans hA2).trans htx⟩

theorem process_signal_Q (alive : Nat → Bool) (w : Waiter) (sig : Signal)
    (w' : Waiter) (new : List Nat) (t : Nat) (cond0 : CallFxCondition)
    (h : w.process_signal alive sig = .ok (w', new))
    (hQ1 : ∀ k ch, (k, ch) ∈ w.checkers → ch.tx = t → cond0 ∈ ch.conditions)
    (hQ2 : t ∉ w.sender_rx)
    (hns : ∀ aw, sig = Signal.Internal aw → cond0.satisfiedBy aw = false) :
    t ∉ new ∧
      (∀ k ch, (k, ch) ∈ w'.checkers → ch.tx = t → cond0 ∈ ch.conditions) ∧
      t ∉ w'.sender_rx := by
  cases sig with
  | OtherSignal tag =>
    simp only [Waiter.process_signal, Except.ok.injEq, Prod.mk.injEq] at h
    obtain ⟨rfl, rfl⟩ := h
    exact ⟨by simp, hQ1, hQ2⟩
  | Internal aw =>
    obtain ⟨cks, hrm, rfl⟩ := process_signal_ok_shape alive w aw w' new h
    obtain ⟨hA1, hA2⟩ := attribution_Q w aw t cond0 hQ1 hQ2
    obtain ⟨hN1, hN2⟩ := runChecksMap_Q alive aw _ _ _ hrm t cond0 hA1
      (hns aw rfl)
    exact ⟨hN1, hN2, hA2⟩

theorem process_signal_inv (alive : Nat → Bool) (w : Waiter) (sig : Signal)
    (w' : Waiter) (new : List Nat)
    (h : w.process_signal alive sig = .ok (w', new))
    (hInv : ∀ p ∈ w.checkers, p.2.conditions ≠ []) :
    ∀ p ∈ w'.checkers, p.2.conditions ≠ [] := by
  cases sig with
  | OtherSignal tag =>
    simp only [Waiter.process_signal, Except.ok.injEq, Prod.mk.injEq] at h
    obtain ⟨rfl, rfl⟩ := h
    exact hInv
  | Internal aw =>
    obtain ⟨cks, hrm, rfl⟩ := process_signal_ok_shape alive w aw w' new h
    exact runChecksMap_inv alive aw _ _ _ hrm (attribution_inv w aw hInv)

/-! ## Lemmas about traces, the polling loop and shutdown -/

theorem processTrace_Q (alive : Nat → Bool) (w : Waiter) (sigs : List Signal)
    (w2 : Waiter) (sends : List Nat) (t : Nat) (cond0 : CallFxCondition)
    (h : processTrace alive w sigs = .ok (w2, sends))
    (hQ1 : ∀ k ch, (k, ch) ∈ w.checkers → ch.tx = t → cond0 ∈ ch.conditions)
    (hQ2 : t ∉ w.sender_rx)
    (hns : ∀ sig ∈ sigs, ∀ aw, sig = Signal.Internal aw →
      cond0.satisfiedBy aw = false) :
    t ∉ sends ∧
      (∀ k ch, (k, ch) ∈ w2.checkers → ch.tx = t → cond0 ∈ ch.conditions) ∧
      t ∉ w2.sender_rx := by
  induction sigs generalizing w w2 sends with
  | nil =>
    simp only [processTrace, Except.ok.injEq, Prod.mk.injEq] at h
    obtain ⟨rfl, rfl⟩ := h
    exact ⟨by simp, hQ1, hQ2⟩
  | cons sig rest ih =>
    cases hps : w.process_signal alive sig with
    | error e => simp [processTrace, hps] at h
    | ok val =>
      obtain ⟨w1, new⟩ := val
      cases hpt : processTrace alive w1 rest with
      | error e => simp [processTrace, hps, hpt] at h
      | ok val2 =>
        obtain ⟨w2', later⟩ := val2
        simp only [processTrace, hps, hpt, Except.ok.injEq, Prod.mk.injEq] at h
        obtain ⟨rfl, rfl⟩ := h
        obtain ⟨h1, h2, h3⟩ := process_signal_Q alive w sig w1 new t cond0 hps
          hQ1 hQ2 (fun aw haw => hns sig (List.mem_cons_self _ _) aw haw)
        obtain ⟨h4, h5, h6⟩ := ih w1 w2' later hpt h2 h3
          (fun sig2 hmem aw haw => hns sig2 (List.mem_cons_of_mem _ hmem) aw haw)
        refine ⟨?_, h5, h6⟩
        intro hmem
        rcases List.mem_append.mp hmem with hm | hm
        · exact h1 hm
        · exact h4 hm

theorem runLoop_WF (alive : Nat → Bool) (w : Waiter)
    (sched : List (Bool × PollResult)) (sends0 : List Nat) (ext : LoopExit)
    (hWF : WFsenders w sends0) (hkeys : WFkeys w)
    (h : runLoop alive w sched = .ok ext) :
    WFsenders ext.state (sends0 ++ ext.sends) ∧ WFkeys ext.state := by
  induction sched generalizing w sends0 ext with
  | nil =>
    simp only [runLoop, Except.ok.injEq] at h
    subst h
    exact ⟨fun a => by simpa using hWF a, hkeys⟩
  | cons fp rest ih =>
    obtain ⟨flag, pr⟩ := fp
    cases flag with
    | false =>
      simp only [runLoop, Bool.false_eq_true, if_false, Except.ok.injEq] at h
      subst h
      exact ⟨fun a => by simpa using hWF a, hkeys⟩
    | true =>
      cases pr with
      | timeout =>
        simp only [runLoop, reduceIte] at h
        exact ih w sends0 ext hWF hkeys h
      | disconnected =>
        simp only [runLoop, reduceIte, Except.ok.injEq] at h
        subst h
        exact ⟨fun a => by simpa using hWF a, hkeys⟩
      | signal sig =>
        cases hps : w.process_signal alive sig with
        | error e => simp [runLoop, hps] at h
        | ok val =>
          obtain ⟨w1, new⟩ := val
          cases hrl : runLoop alive w1 rest with
          | error e => simp [runLoop, hps, hrl] at h
          | ok ext2 =>
            obtain ⟨hWF1, hkeys1⟩ := process_signal_WF alive w sig sends0 w1 new
              hWF hkeys hps
            obtain ⟨hWF2, hkeys2⟩ := ih w1 (sends0 ++ new) ext2 hWF1 hkeys1 hrl
            cases ext2 with
            | flagStop w2 s2 =>
              simp only [runLoop, reduceIte, hps, hrl, Except.ok.injEq] at h
              subst h
              refine ⟨?_, hkeys2⟩
              intro a
              have hx := hWF2 a
              simp only [List.count_append, LoopExit.state, LoopExit.sends] at *
              omega
            | fatal e w2 s2 =>
              simp only [runLoop, reduceIte, hps, hrl, Except.ok.injEq] at h
              subst h
              refine ⟨?_, hkeys2⟩
              intro a
              have hx := hWF2 a
              simp only [List.count_append, LoopExit.state, LoopExit.sends] at *
              omega

theorem runLoop_notin (alive : Nat → Bool) (w : Waiter)
    (sched : List (Bool × PollResult)) (t : Nat) (ext : LoopExit)
    (ht1 : t ∉ txList w.checkers) (ht2 : t ∉ w.sender_rx)
    (h : runLoop alive w sched = .ok ext) :
    t ∉ ext.sends ∧ t ∉ txList ext.state.checkers ∧
      t ∉ ext.state.sender_rx := by
  induction sched generalizing w ext with
  | nil =>
    simp only [runLoop, Except.ok.injEq] at h
    subst h
    exact ⟨by simp [LoopExit.sends], ht1, ht2⟩
  | cons fp rest ih =>
    obtain ⟨flag, pr⟩ := fp
    cases flag with
    | false =>
      simp only [runLoop, Bool.false_eq_true, if_false, Except.ok.injEq] at h
      subst h
      exact ⟨by simp [LoopExit.sends], ht1, ht2⟩
    | true =>
      cases pr with
      | timeout =>
        simp only [runLoop, reduceIte] at h
        exact ih w ext ht1 ht2 h
      | disconnected =>
        simp only [runLoop, reduceIte, Except.ok.injEq] at h
        subst h
        exact ⟨by simp [LoopExit.sends], ht1, ht2⟩
      | signal sig =>
        cases hps : w.process_signal alive sig with
        | error e => simp [runLoop, hps] at h
        | ok val =>
          obtain ⟨w1, new⟩ := val
          cases hrl : runLoop alive w1 rest with
          | error e => simp [runLoop, hps, hrl] at h
          | ok ext2 =>
            obtain ⟨hn1, hn2, hn3⟩ := process_signal_notin alive w sig w1 new t
              hps ht1 ht2
            obtain ⟨hm1, hm2, hm3⟩ := ih w1 ext2 hn2 hn3 hrl
            cases ext2 with
            | flagStop w2 s2 =>
              simp only [runLoop, reduceIte, hps, hrl, Except.ok.injEq] at h
              subst h
              simp only [LoopExit.sends, LoopExit.state] at *
              refine ⟨?_, hm2, hm3⟩
              intro hmem
              rcases List.mem_append.mp hmem with hm | hm
              · exact hn1 hm
              · exact hm1 hm
            | fatal e w2 s2 =>
              simp only [runLoop, reduceIte, hps, hrl, Except.ok.injEq] at h
              subst h
              simp only [LoopExit.sends, LoopExit.state] at *
              refine ⟨?_, hm2, hm3⟩
              intro hmem
              rcases List.mem_append.mp hmem with hm | hm
              · exact hn1 hm
              · exact hm1 hm

theorem runLoop_persist (alive : Nat → Bool) (w : Waiter)
    (sched : List (Bool × PollResult)) (c : ZomeFnCall) (ch : CallFxChecker)
    (t : Nat) (ext : LoopExit)
    (hm : (c, ch) ∈ w.checkers) (htx : ch.tx = t)
    (hnr : noConsumingReexec alive c w sched)
    (h : runLoop alive w sched = .ok ext) :
    t ∈ ext.sends ∨ ∃ ch', (c, ch') ∈ ext.state.checkers ∧ ch'.tx = t := by
  induction sched generalizing w ch ext with
  | nil =>
    simp only [runLoop, Except.ok.injEq] at h
    subst h
    exact Or.inr ⟨ch, hm, htx⟩
  | cons fp rest ih =>
    obtain ⟨flag, pr⟩ := fp
    cases flag with
    | false =>
      simp only [runLoop, Bool.false_eq_true, if_false, Except.ok.injEq] at h
      subst h
      exact Or.inr ⟨ch, hm, htx⟩
    | true =>
      obtain ⟨hc1, hc2, hc3⟩ := hnr rfl
      cases pr with
      | timeout =>
        simp only [runLoop, reduceIte] at h
        exact ih w ch ext hm htx (hc2 rfl) h
      | disconnected =>
        simp only [runLoop, reduceIte, Except.ok.injEq] at h
        subst h
        exact Or.inr ⟨ch, hm, htx⟩
      | signal sig =>
        cases hps : w.process_signal alive sig with
        | error e => simp [runLoop, hps] at h
        | ok val =>
          obtain ⟨w1, new⟩ := val
          cases hrl : runLoop alive w1 rest with
          | error e => simp [runLoop, hps, hrl] at h
          | ok ext2 =>
            have hsig : sig = Signal.Internal (Action.ExecuteZomeFunction c) →
                w.sender_rx = [] := by
              intro haw
              exact hc1 (by rw [haw])
            have hnr1 : noConsumingReexec alive c w1 rest :=
              hc3 sig w1 new rfl hps
            rcases process_signal_persist alive w sig w1 new c ch t hps hm htx
              hsig with hfired | ⟨ch1, hm1, htx1⟩
            · cases ext2 with
              | flagStop w2 s2 =>
                simp only [runLoop, reduceIte, hps, hrl, Except.ok.injEq] at h
                subst h
                exact Or.inl (by
                  simp only [LoopExit.sends]
                  exact List.mem_append_left _ hfired)
              | fatal e w2 s2 =>
                simp only [runLoop, reduceIte, hps, hrl, Except.ok.injEq] at h
                subst h
                exact Or.inl (by
                  simp only [LoopExit.sends]
                  exact List.mem_append_left _ hfired)
            · rcases ih w1 ch1 ext2 hm1 htx1 hnr1 hrl with hin | hkept
              · cases ext2 with
                | flagStop w2 s2 =>
                  simp only [runLoop, reduceIte, hps, hrl, Except.ok.injEq] at h
                  subst h
                  refine Or.inl ?_
                  simp only [LoopExit.sends] at hin ⊢
                  exact List.mem_append_right _ hin
                | fatal e w2 s2 =>
                  simp only [runLoop, reduceIte, hps, hrl, Except.ok.injEq] at h
                  subst h
                  refine Or.inl ?_
                  simp only [LoopExit.sends] at hin ⊢
                  exact List.mem_append_right _ hin
              · cases ext2 with
                | flagStop w2 s2 =>
                  simp only [runLoop, reduceIte, hps, hrl, Except.ok.injEq] at h
                  subst h
                  exact Or.inr (by simpa [LoopExit.state] using hkept)
                | fatal e w2 s2 =>
                  simp only [runLoop, reduceIte, hps, hrl, Except.ok.injEq] at h
                  subst h
                  exact Or.inr (by simpa [LoopExit.state] using hkept)

theorem shutdownAllList_spec (alive : Nat → Bool)
    (cks cks' : List (ZomeFnCall × CallFxChecker)) (new : List Nat)
    (h : shutdownAllList alive cks = .ok (cks', new)) :
    cks' = cks.map (fun p => (p.1, ⟨p.2.tx, []⟩)) ∧ new = txList cks := by
  induction cks generalizing cks' new with
  | nil =>
    simp only [shutdownAllList, Except.ok.injEq, Prod.mk.injEq] at h
    obtain ⟨rfl, rfl⟩ := h
    exact ⟨rfl, rfl⟩
  | cons p rest ih =>
    obtain ⟨k, ch⟩ := p
    cases hsd : ch.shutdown alive with
    | error e => simp [shutdownAllList, hsd] at h
    | ok val =>
      obtain ⟨ch', new0⟩ := val
      cases hsr : shutdownAllList alive rest with
      | error e => simp [shutdownAllList, hsd, hsr] at h
      | ok val2 =>
        obtain ⟨rest', newr⟩ := val2
        simp only [shutdownAllList, hsd, hsr, Except.ok.injEq,
          Prod.mk.injEq] at h
        obtain ⟨rfl, rfl⟩ := h
        obtain ⟨ih1, ih2⟩ := ih rest' newr hsr
        have hshape : ch' = ⟨ch.tx, []⟩ ∧ new0 = [ch.tx] := by
          dsimp only [CallFxChecker.shutdown, CallFxChecker.stop] at hsd
          split at hsd
          · simp only [Except.map, Except.ok.injEq, Prod.mk.injEq] at hsd
            exact ⟨hsd.1.symm, hsd.2.symm⟩
          · simp only [Except.map] at hsd
            cases hsd
        obtain ⟨rfl, rfl⟩ := hshape
        simp [ih1, ih2, txList]

/-! ## Small helpers used by the claim theorems -/

theorem lookupChecker_eq_none (cks : List (ZomeFnCall × CallFxChecker))
    (c : ZomeFnCall) (h : c ∉ keyList cks) : lookupChecker cks c = none := by
  induction cks with
  | nil => rfl
  | cons p rest ih =>
    obtain ⟨k0, ch0⟩ := p
    have hne : k0 ≠ c := by
      intro hEq
      exact h (by simp [keyList, hEq])
    have hrest : c ∉ keyList rest := fun hmem => h (by simp [keyList] at hmem ⊢; exact Or.inr hmem)
    simp only [lookupChecker, beq_iff_eq, hne, if_false]
    exact ih hrest

theorem satisfiedBy_execute_false (id : ZomeFnCall) :
    ∀ cond : CallFxCondition,
      cond.satisfiedBy (.ExecuteZomeFunction id) = false := by
  intro cond
  cases cond <;> rfl

theorem process_signal_execute (alive : Nat → Bool) (w : Waiter)
    (id : ZomeFnCall) :
    w.process_signal alive (.Internal (.ExecuteZomeFunction id)) =
      .ok (w.attribution (.ExecuteZomeFunction id), []) := by
  dsimp only [Waiter.process_signal, Waiter.run_checks]
  rw [runChecksMap_noop alive _ _ (satisfiedBy_execute_false id)]
  rfl

theorem attribution_none_inert (w : Waiter) (hc : w.current = none) :
    (∀ e, w.attribution (.Commit e) = w) ∧
      (∀ d, w.attribution (.SendDirectMessage d) = w) := by
  constructor
  · intro e
    simp [Waiter.attribution, hc]
  · intro d
    obtain ⟨mid, msg⟩ := d
    cases msg <;> simp [Waiter.attribution, hc]

theorem perform_notin (alive : Nat → Bool) (w : Waiter)
    (sched : List (Bool × PollResult)) (r : RunnerResult) (t : Nat)
    (ht1 : t ∉ txList w.checkers) (ht2 : t ∉ w.sender_rx)
    (h : perform alive w sched = .ok r) : t ∉ r.sends := by
  cases hrl : runLoop alive w sched with
  | error e => simp [perform, hrl] at h
  | ok ext =>
    obtain ⟨hn1, hn2, hn3⟩ := runLoop_notin alive w sched t ext ht1 ht2 hrl
    cases ext with
    | flagStop w2 s2 =>
      cases hsd : shutdownAllList alive w2.checkers with
      | error e => simp [perform, hrl, hsd] at h
      | ok val =>
        obtain ⟨cks, new⟩ := val
        obtain ⟨_, hnew⟩ := shutdownAllList_spec alive _ _ _ hsd
        simp only [perform, hrl, hsd, Except.ok.injEq] at h
        subst h
        intro hmem
        rcases List.mem_append.mp hmem with hm | hm
        · exact hn1 (by simpa [LoopExit.sends] using hm)
        · rw [hnew] at hm
          exact hn2 (by simpa [LoopExit.state] using hm)
    | fatal e w2 s2 =>
      simp only [perform, hrl, Except.ok.injEq] at h
      subst h
      exact fun hm => hn1 (by simpa [LoopExit.sends] using hm)

theorem count_singleton_pair_le_one (t1 t2 a : Nat) (hne : t1 ≠ t2) :
    ([t1] : List Nat).count a + ([t2] : List Nat).count a ≤ 1 := by
  simp only [List.count_cons, List.count_nil, beq_iff_eq]
  by_cases h1 : t1 = a
  · by_cases h2 : t2 = a
    · exact absurd (h1.trans h2.symm) hne
    · simp [h1, h2]
  · by_cases h2 : t2 = a <;> simp [h1, h2]

/-! ## Claim theorems -/

/-- C9: for two registered invocations A (= call `1`, sender `100`) and
B (= call `2`, sender `101`) processed in the order start A; write A1;
return A; start B; write B2; write B3; acknowledge A1; return B;
acknowledge B2; acknowledge B3, A's completion fires exactly at the
acknowledge-A1 step (send log `[]` after six steps, `[100]` after seven),
B's completion has not fired after acknowledge B2 (log still `[100]` after
nine steps), and B's completion fires exactly at the acknowledge-B3 step
(log `[100, 101]` after all ten). -/
theorem C9_funky_ordering :
    (processTrace aliveAll (Waiter.new [100, 101]) (funkySignals.take 6)).map
        (fun p => p.2) = .ok [] ∧
    (processTrace aliveAll (Waiter.new [100, 101]) (funkySignals.take 7)).map
        (fun p => p.2) = .ok [100] ∧
    (processTrace aliveAll (Waiter.new [100, 101]) (funkySignals.take 9)).map
        (fun p => p.2) = .ok [100] ∧
    (processTrace aliveAll (Waiter.new [100, 101]) funkySignals).map
        (fun p => p.2) = .ok [100, 101] :=
  ⟨rfl, rfl, rfl, rfl⟩

/-- C6 counterexample: after the trace start-7 (with a pending sender),
return-7, the invocation's ConditionSet has been removed from the map but
`current` is still `some 7`: the "current never dangles" invariant is
false on the code. -/
theorem C6_counterexample :
    processTrace aliveAll (Waiter.new [0])
        [.Internal (.ExecuteZomeFunction 7),
         .Internal (.ReturnZomeFunctionResult 7)]
      = .ok (⟨[], some 7, []⟩, [0]) ∧
    (⟨[], some 7, []⟩ : Waiter).current = some 7 ∧
    lookupChecker (⟨[], some 7, []⟩ : Waiter).checkers 7 = none :=
  ⟨rfl, rfl, rfl⟩

/-- C6 (amended): between `process_signal` calls `current` may name an id
whose ConditionSet has already been removed from the map, but such a
dangling `current` is inert: `current_checker()` finds nothing, so the
attribution phase of a `Commit` or a `SendDirectMessage` leaves the state
unchanged (no condition is added to any set). -/
theorem C6_dangling_current_inert (w : Waiter) (c : ZomeFnCall)
    (hc : w.current = some c) (hmiss : lookupChecker w.checkers c = none) :
    (∀ e, w.attribution (.Commit e) = w) ∧
    (∀ d, w.attribution (.SendDirectMessage d) = w) := by
  constructor
  · intro e
    simp [Waiter.attribution, hc, hmiss]
  · intro d
    obtain ⟨mid, msg⟩ := d
    cases msg <;> simp [Waiter.attribution, hc, hmiss]

/-- Witness for C6: the dangling state reached in the counterexample is
inert for a concrete commit and a concrete custom peer message. -/
theorem C6_dangling_current_inert_witness :
    (⟨[], some 7, []⟩ : Waiter).attribution (.Commit 3) = ⟨[], some 7, []⟩ ∧
    (⟨[], some 7, []⟩ : Waiter).attribution
        (.SendDirectMessage ⟨5, .Custom 0⟩) = ⟨[], some 7, []⟩ :=
  ⟨(C6_dangling_current_inert ⟨[], some 7, []⟩ 7 rfl rfl).1 3,
   (C6_dangling_current_inert ⟨[], some 7, []⟩ 7 rfl rfl).2 ⟨5, .Custom 0⟩⟩

/-- C2 counterexample: with every consumer's receiver dropped (`deadAll`),
registering invocation 1 and then processing its return makes the
completion send fail and the `.unwrap()` panic: `process_signal` aborts
(`Except.error ()`) instead of continuing, so the failure is not
non-fatal. -/
theorem C2_counterexample :
    processTrace deadAll (Waiter.new [0])
        [.Internal (.ExecuteZomeFunction 1),
         .Internal (.ReturnZomeFunctionResult 1)]
      = .error () := rfl

/-- C2 (amended): if a completion send fails because the consumer dropped
its receiver, the `.unwrap()` on the send result panics the tracker task:
whenever any checker of the post-attribution map would fire on an event
while its channel is dead, `process_signal` aborts with a panic and does
not continue processing other invocations. -/
theorem C2_dead_receiver_panics (alive : Nat → Bool) (w : Waiter)
    (aw : Action) (k : ZomeFnCall) (ch : CallFxChecker)
    (hmem : (k, ch) ∈ (w.attribution aw).checkers)
    (hne : ch.conditions ≠ [])
    (hsat : ch.conditions.filter (fun c => !c.satisfiedBy aw) = [])
    (hdead : alive ch.tx = false) :
    w.process_signal alive (.Internal aw) = .error () := by
  dsimp only [Waiter.process_signal, Waiter.run_checks]
  rw [runChecksMap_error alive aw _ k ch hmem hne hsat hdead]
  rfl

/-- Witness for C2: the concrete panic of the counterexample, derived
through the amended theorem. -/
theorem C2_dead_receiver_panics_witness :
    Waiter.process_signal ⟨[(1, ⟨0, [.awaitReturn 1]⟩)], some 1, []⟩ deadAll
      (.Internal (.ReturnZomeFunctionResult 1)) = .error () :=
  C2_dead_receiver_panics deadAll ⟨[(1, ⟨0, [.awaitReturn 1]⟩)], some 1, []⟩
    (.ReturnZomeFunctionResult 1) 1 ⟨0, [.awaitReturn 1]⟩
    (by decide) (by decide) (by decide) rfl

/-- C3 counterexample: run the Runner with one registered invocation and
let the loop exit through the flag, so the shutdown pass runs; the map
afterwards still holds the entry (with cleared conditions): the map is not
empty, contradicting "the invocation-id-to-ConditionSet map is empty". -/
theorem C3_counterexample :
    (perform aliveAll (Waiter.new [0])
        [(true, .signal (.Internal (.ExecuteZomeFunction 1)))]).map
      (fun r => r.finalState.checkers) = .ok [(1, ⟨0, []⟩)] ∧
    ([(1, (⟨0, []⟩ : CallFxChecker))] :
      List (ZomeFnCall × CallFxChecker)) ≠ [] :=
  ⟨rfl, by simp⟩

/-- C3 (amended): after the shutdown procedure runs (`shutdown()` called
on every remaining ConditionSet), every remaining set has fired its
forced completion and its conditions are cleared, but the entries remain
in the map under the same keys; the map is never cleared. -/
theorem C3_shutdown_forces_all (alive : Nat → Bool)
    (cks cks' : List (ZomeFnCall × CallFxChecker)) (new : List Nat)
    (h : shutdownAllList alive cks = .ok (cks', new)) :
    keyList cks' = keyList cks ∧ (∀ p ∈ cks', p.2.conditions = []) ∧
      new = txList cks := by
  obtain ⟨h1, h2⟩ := shutdownAllList_spec alive cks cks' new h
  subst h1
  subst h2
  refine ⟨?_, ?_, rfl⟩
  · simp [keyList, List.map_map, Function.comp]
  · intro p hp
    simp only [List.mem_map] at hp
    obtain ⟨q, _, hpe⟩ := hp
    rw [← hpe]

/-- Witness for C3: shutting down a singleton map forces its one
completion and keeps its key. -/
theorem C3_shutdown_forces_all_witness :
    keyList [(1, (⟨5, []⟩ : CallFxChecker))] =
      keyList [(1, (⟨5, [.awaitReturn 1]⟩ : CallFxChecker))] ∧
    ([5] : List Nat) = txList [(1, (⟨5, [.awaitReturn 1]⟩ : CallFxChecker))] :=
  ⟨(C3_shutdown_forces_all aliveAll [(1, ⟨5, [.awaitReturn 1]⟩)]
      [(1, ⟨5, []⟩)] [5] rfl).1,
   (C3_shutdown_forces_all aliveAll [(1, ⟨5, [.awaitReturn 1]⟩)]
      [(1, ⟨5, []⟩)] [5] rfl).2.2⟩

/-- C4 counterexample: with one registered invocation outstanding, a fatal
(non-timeout) receive error makes `perform` return the error immediately:
the final map still holds the pending set, no send ever happened, and the
shutdown pass did not run — contradicting "shutdown() is invoked on every
ConditionSet still in the tracker's map" for the fatal-exit case. -/
theorem C4_counterexample :
    (perform aliveAll (Waiter.new [5])
        [(true, .signal (.Internal (.ExecuteZomeFunction 1))),
         (true, .disconnected)]).map
      (fun r => (r.result, r.finalState.checkers, r.sends, r.shutdownRan))
      = .ok (.error "disconnected", [(1, ⟨5, [.awaitReturn 1]⟩)], [], false) ∧
    (5 : Nat) ∉ ([] : List Nat) :=
  ⟨rfl, by simp⟩

/-- C4 (amended): `shutdown()` is invoked on the remaining ConditionSets
only when the Runner's loop exits via the shutdown flag: on a flag exit
(`result = Ok`), every checker left in the final map has been
force-completed (conditions cleared, its sender in the send log); on a
fatal receive error the Runner returns the error immediately without the
shutdown pass, and every remaining checker's sender has never fired. -/
theorem C4_shutdown_only_on_flag_exit (alive : Nat → Bool) (w : Waiter)
    (sends0 : List Nat) (sched : List (Bool × PollResult)) (r : RunnerResult)
    (hWF : WFsenders w sends0) (hkeys : WFkeys w)
    (h : perform alive w sched = .ok r) :
    (r.result = .ok () →
      ∀ p ∈ r.finalState.checkers, p.2.conditions = [] ∧ p.2.tx ∈ r.sends) ∧
    (r.result ≠ .ok () → r.shutdownRan = false ∧
      ∀ p ∈ r.finalState.checkers, p.2.tx ∉ sends0 ++ r.sends) := by
  cases hrl : runLoop alive w sched with
  | error e => simp [perform, hrl] at h
  | ok ext =>
    obtain ⟨hWF2, hkeys2⟩ := runLoop_WF alive w sched sends0 ext hWF hkeys hrl
    cases ext with
    | flagStop w2 s2 =>
      cases hsd : shutdownAllList alive w2.checkers with
      | error e => simp [perform, hrl, hsd] at h
      | ok val =>
        obtain ⟨cks, new⟩ := val
        obtain ⟨hcks, hnew⟩ := shutdownAllList_spec alive _ _ _ hsd
        simp only [perform, hrl, hsd, Except.ok.injEq] at h
        subst h
        constructor
        · intro _ p hp
          subst hcks
          simp only [List.mem_map] at hp
          obtain ⟨qe, hqe, hpe⟩ := hp
          refine ⟨by rw [← hpe], ?_⟩
          have htx : p.2.tx = qe.2.tx := by rw [← hpe]
          rw [htx, hnew]
          refine List.mem_append_right _ ?_
          exact List.mem_map_of_mem (fun p => p.2.tx) hqe
        · intro hres
          exact absurd rfl hres
    | fatal e w2 s2 =>
      simp only [perform, hrl, Except.ok.injEq] at h
      subst h
      constructor
      · intro hres
        cases hres
      · intro _
        refine ⟨rfl, ?_⟩
        intro p hp hmem
        have hcount := hWF2 p.2.tx
        simp only [LoopExit.state, LoopExit.sends] at hcount
        have h1 : 0 < (sends0 ++ s2).count p.2.tx :=
          List.count_pos_iff.mpr hmem
        have h2 : 0 < (txList w2.checkers).count p.2.tx := by
          refine List.count_pos_iff.mpr ?_
          exact List.mem_map_of_mem (fun p => p.2.tx) hp
        simp only [List.count_append] at h1 hcount
        omega

/-- Witness for C4: a run with one registered invocation whose loop exits
via the flag force-completes the lingering checker. -/
theorem C4_shutdown_only_on_flag_exit_witness :
    (⟨5, []⟩ : CallFxChecker).conditions = [] ∧ (5 : Nat) ∈ ([5] : List Nat) :=
  (C4_shutdown_only_on_flag_exit aliveAll (Waiter.new [5]) []
      [(true, .signal (.Internal (.ExecuteZomeFunction 1)))]
      ⟨.ok (), ⟨[(1, ⟨5, []⟩)], some 1, []⟩, [5], true⟩
      (by
        intro a
        simpa [Waiter.new, txList] using List.count_le_length a [5])
      (by
        intro a
        simp [WFkeys, Waiter.new, keyList])
      rfl).1 rfl (1, ⟨5, []⟩) (by simp)

/-- C5: between `process_signal` calls every ConditionSet in the map has
at least one unsatisfied condition (the invariant is preserved by every
step from a state satisfying it), and in the call whose event satisfies
the last conditions of a set (after attribution), that set is removed
from the map and its completion sender fires exactly once in that call's
send log. -/
theorem C5_map_iff_pending (alive : Nat → Bool) (w : Waiter) (aw : Action)
    (w' : Waiter) (new : List Nat)
    (hInv : ∀ p ∈ w.checkers, p.2.conditions ≠ [])
    (hWF : WFsenders w []) (hkeys : WFkeys w)
    (h : w.process_signal alive (.Internal aw) = .ok (w', new)) :
    (∀ p ∈ w'.checkers, p.2.conditions ≠ []) ∧
    (∀ k ch, (k, ch) ∈ (w.attribution aw).checkers → ch.conditions ≠ [] →
      ch.conditions.filter (fun c => !c.satisfiedBy aw) = [] →
      lookupChecker w'.checkers k = none ∧ new.count ch.tx = 1) := by
  refine ⟨process_signal_inv alive w _ w' new h hInv, ?_⟩
  intro k ch hm hne hf
  obtain ⟨cks, hrm, rfl⟩ := process_signal_ok_shape alive w aw w' new h
  have hkattr : (keyList (w.attribution aw).checkers).count k ≤ 1 :=
    attribution_WFkeys w aw hkeys k
  have hgone : k ∉ keyList cks :=
    runChecksMap_fire_key_gone alive aw _ _ _ hrm k ch hkattr hm hne hf
  refine ⟨lookupChecker_eq_none cks k hgone, ?_⟩
  have hmemnew : ch.tx ∈ new := runChecksMap_fire_mem alive aw _ _ _ hrm k ch hm hne hf
  have hcnt := runChecksMap_count alive aw _ _ _ hrm ch.tx
  have hattr := attribution_sends_count w aw ch.tx
  have hwf := hWF ch.tx
  have hpos : 0 < new.count ch.tx := List.count_pos_iff.mpr hmemnew
  simp only [List.count_nil] at hwf
  omega

/-- Witness for C5: a single-checker state whose last condition is met by
the matching return event; the set is removed and its sender fires once. -/
theorem C5_map_iff_pending_witness :
    lookupChecker ([] : List (ZomeFnCall × CallFxChecker)) 7 = none ∧
    ([3] : List Nat).count 3 = 1 :=
  (C5_map_iff_pending aliveAll ⟨[(7, ⟨3, [.awaitReturn 7]⟩)], some 7, []⟩
      (.ReturnZomeFunctionResult 7) ⟨[], some 7, []⟩ [3]
      (by decide)
      (by
        intro a
        simpa [txList] using List.count_le_length a [3])
      (by
        intro a
        simpa [WFkeys, keyList] using List.count_le_length a [7])
      rfl).2 7 ⟨3, [.awaitReturn 7]⟩ (by decide) (by decide) (by decide)

/-- C7: when `process_signal` handles an `ExecuteZomeFunction id`
(`InvocationStarted`), (i) with a pending registration sender `t` a new
ConditionSet holding exactly `awaitReturn id` is inserted under `id`,
`current` becomes `some id`, the sender is consumed, and no completion
fires in this step; (ii) with no pending registration the map is left
unchanged and `current` becomes `none`, so the untracked invocation has
no sender and produces no notification; and (iii) with `current = none`
the attribution of subsequent `Commit` and `SendDirectMessage` events
adds no condition to any tracked set. -/
theorem C7_invocation_started (alive : Nat → Bool) (w : Waiter)
    (id : ZomeFnCall) :
    (∀ t q, w.sender_rx = t :: q →
      w.process_signal alive (.Internal (.ExecuteZomeFunction id)) =
        .ok (⟨addCond (insertChecker w.checkers id (CallFxChecker.new t)) id
          (.awaitReturn id), some id, q⟩, []) ∧
      lookupChecker (addCond (insertChecker w.checkers id
          (CallFxChecker.new t)) id (.awaitReturn id)) id =
        some ⟨t, [.awaitReturn id]⟩) ∧
    (w.sender_rx = [] →
      w.process_signal alive (.Internal (.ExecuteZomeFunction id)) =
        .ok ({ w with current := none }, [])) ∧
    (∀ w2 : Waiter, w2.current = none →
      (∀ e, w2.attribution (.Commit e) = w2) ∧
      (∀ d, w2.attribution (.SendDirectMessage d) = w2)) := by
  refine ⟨?_, ?_, ?_⟩
  · intro t q hq
    refine ⟨?_, insertAdd_lookup w.checkers id t (.awaitReturn id)⟩
    rw [process_signal_execute alive w id, execute_attribution w id t q hq]
  · intro hq
    rw [process_signal_execute alive w id, execute_attribution_empty w id hq]
  · intro w2 hc
    exact attribution_none_inert w2 hc

/-- Witness for C7: registering invocation 7 with pending sender 3
creates the singleton set; starting it without a registration only clears
`current`. -/
theorem C7_invocation_started_witness :
    ((Waiter.new [3]).process_signal aliveAll
        (.Internal (.ExecuteZomeFunction 7)) =
      .ok (⟨addCond (insertChecker (Waiter.new [3]).checkers 7
        (CallFxChecker.new 3)) 7 (.awaitReturn 7), some 7, []⟩, [])) ∧
    ((Waiter.new ([] : List Nat)).process_signal aliveAll
        (.Internal (.ExecuteZomeFunction 7)) =
      .ok ({ Waiter.new [] with current := none }, [])) :=
  ⟨((C7_invocation_started aliveAll (Waiter.new [3]) 7).1 3 [] rfl).1,
   (C7_invocation_started aliveAll (Waiter.new []) 7).2.1 rfl⟩

/-- C8: a round-trip-requiring peer message (`DirectMessage::Custom`)
sent while invocation `cid` is current and tracked appends the condition
`awaitPeerOutcome m` to `cid`'s set; that condition is satisfied only by
a `ResolveDirectConnection` or `SendDirectMessageTimeout` action carrying
the same message id; consequently, along any trace containing neither of
those two events for `m`, the sender of a checker holding the condition
never fires; and a peer message of any other kind changes nothing. -/
theorem C8_peer_round_trip (alive : Nat → Bool) (w : Waiter)
    (cid : ZomeFnCall) (ch : CallFxChecker) (m : MsgId) :
    (∀ p, w.current = some cid → lookupChecker w.checkers cid = some ch →
      (w.attribution (.SendDirectMessage ⟨m, .Custom p⟩)).checkers =
        addCond w.checkers cid (.awaitPeerOutcome m)) ∧
    (∀ aw : Action,
      CallFxCondition.satisfiedBy (.awaitPeerOutcome m) aw = true ↔
        (aw = .ResolveDirectConnection m ∨ aw = .SendDirectMessageTimeout m)) ∧
    (∀ tag, w.attribution (.SendDirectMessage ⟨m, .Other tag⟩) = w) ∧
    (∀ t sigs w2 sends,
      (∀ k ch0, (k, ch0) ∈ w.checkers → ch0.tx = t →
        CallFxCondition.awaitPeerOutcome m ∈ ch0.conditions) →
      t ∉ w.sender_rx →
      (∀ sig ∈ sigs,
        sig ≠ Signal.Internal (Action.ResolveDirectConnection m) ∧
        sig ≠ Signal.Internal (Action.SendDirectMessageTimeout m)) →
      processTrace alive w sigs = .ok (w2, sends) → t ∉ sends) := by
  refine ⟨?_, ?_, ?_, ?_⟩
  · intro p hc hl
    simp [Waiter.attribution, hc, hl]
  · intro aw
    cases aw <;> simp [CallFxCondition.satisfiedBy]
  · intro tag
    cases hc : w.current <;> simp [Waiter.attribution, hc]
  · intro t sigs w2 sends hQ1 hQ2 hsig hpt
    have hns : ∀ sig ∈ sigs, ∀ aw, sig = Signal.Internal aw →
        (CallFxCondition.awaitPeerOutcome m).satisfiedBy aw = false := by
      intro sig hmem aw haw
      obtain ⟨hs1, hs2⟩ := hsig sig hmem
      subst haw
      cases aw with
      | ResolveDirectConnection mid =>
        simp only [CallFxCondition.satisfiedBy, beq_eq_false_iff_ne, ne_eq]
        intro hEq
        exact hs1 (by rw [hEq])
      | SendDirectMessageTimeout mid =>
        simp only [CallFxCondition.satisfiedBy, beq_eq_false_iff_ne, ne_eq]
        intro hEq
        exact hs2 (by rw [hEq])
      | ExecuteZomeFunction call => rfl
      | ReturnZomeFunctionResult call => rfl
      | Commit entry => rfl
      | Hold entry => rfl
      | SendDirectMessage data => rfl
      | OtherAction tag => rfl
    exact (processTrace_Q alive w sigs w2 sends t _ hpt hQ1 hQ2 hns).1

/-- Witness for C8: a tracked invocation whose set holds
`awaitPeerOutcome 4` gains the condition from a custom message, the
condition answers only to the matching resolution or timeout, a
non-custom message is a no-op, and a trace of one unrelated event does
not fire the sender. -/
theorem C8_peer_round_trip_witness :
    ((⟨[(1, ⟨9, [.awaitPeerOutcome 4]⟩)], some 1, []⟩ : Waiter).attribution
        (.SendDirectMessage ⟨4, .Custom 0⟩)).checkers =
      addCond [(1, ⟨9, [.awaitPeerOutcome 4]⟩)] 1 (.awaitPeerOutcome 4) ∧
    (CallFxCondition.satisfiedBy (.awaitPeerOutcome 4)
        (.ResolveDirectConnection 4) = true ↔
      ((.ResolveDirectConnection 4 : Action) = .ResolveDirectConnection 4 ∨
        (.ResolveDirectConnection 4 : Action) = .SendDirectMessageTimeout 4)) ∧
    ((⟨[(1, ⟨9, [.awaitPeerOutcome 4]⟩)], some 1, []⟩ : Waiter).attribution
        (.SendDirectMessage ⟨4, .Other 0⟩) =
      ⟨[(1, ⟨9, [.awaitPeerOutcome 4]⟩)], some 1, []⟩) ∧
    (9 : Nat) ∉ ([] : List Nat) :=
  ⟨(C8_peer_round_trip aliveAll ⟨[(1, ⟨9, [.awaitPeerOutcome 4]⟩)], some 1, []⟩
      1 ⟨9, [.awaitPeerOutcome 4]⟩ 4).1 0 rfl rfl,
   (C8_peer_round_trip aliveAll ⟨[(1, ⟨9, [.awaitPeerOutcome 4]⟩)], some 1, []⟩
      1 ⟨9, [.awaitPeerOutcome 4]⟩ 4).2.1 (.ResolveDirectConnection 4),
   (C8_peer_round_trip aliveAll ⟨[(1, ⟨9, [.awaitPeerOutcome 4]⟩)], some 1, []⟩
      1 ⟨9, [.awaitPeerOutcome 4]⟩ 4).2.2.1 0,
   (C8_peer_round_trip aliveAll ⟨[(1, ⟨9, [.awaitPeerOutcome 4]⟩)], some 1, []⟩
      1 ⟨9, [.awaitPeerOutcome 4]⟩ 4).2.2.2 9 [.Internal (.Hold 2)]
      ⟨[(1, ⟨9, [.awaitPeerOutcome 4]⟩)], some 1, []⟩ []
      (by intro k ch0 hk htx; simp_all) (by decide) (by decide) rfl⟩

/-- C1 counterexample: registering invocation 7 (sender `0`) and then
re-registering the same call while it is outstanding (second
`ExecuteZomeFunction 7`, consuming sender `1`) destroys the first set;
the Runner then exits normally (`result = Ok`), yet sender `0` never
fires (the total send log is `[1]`): "exactly one result is delivered"
is false as stated. -/
theorem C1_counterexample :
    (perform aliveAll (Waiter.new [0, 1])
        [(true, .signal (.Internal (.ExecuteZomeFunction 7))),
         (true, .signal (.Internal (.ExecuteZomeFunction 7)))]).map
      (fun r => (r.result, r.sends)) = .ok (.ok (), [1]) ∧
    ([1] : List Nat).count 0 = 0 :=
  ⟨rfl, rfl⟩

/-- C1 (amended): for a registered invocation (a checker holding sender
`t` present in the map, with channels well-formed), across the Runner's
whole run — any sequence of processed signals followed by at most one
shutdown pass — sender `t` fires at most once; and if additionally no
later `ExecuteZomeFunction` for the same call id consumes a pending
registration along the run (`noConsumingReexec`: every same-id start is
processed with an empty intake, so it only clears `current`; a consuming
one would silently replace the set) and the Runner exits normally,
exactly one result is delivered on `t`. -/
theorem C1_completion_fires_once (alive : Nat → Bool) (w : Waiter)
    (sends0 : List Nat) (c : ZomeFnCall) (ch : CallFxChecker) (t : Nat)
    (sched : List (Bool × PollResult)) (r : RunnerResult)
    (hWF : WFsenders w sends0) (hkeys : WFkeys w)
    (hm : (c, ch) ∈ w.checkers) (htx : ch.tx = t)
    (hrun : perform alive w sched = .ok r) :
    (sends0 ++ r.sends).count t ≤ 1 ∧
    (noConsumingReexec alive c w sched →
      r.result = .ok () → (sends0 ++ r.sends).count t = 1) := by
  cases hrl : runLoop alive w sched with
  | error e => simp [perform, hrl] at hrun
  | ok ext =>
    obtain ⟨hWF2, hkeys2⟩ := runLoop_WF alive w sched sends0 ext hWF hkeys hrl
    cases ext with
    | flagStop w2 s2 =>
      cases hsd : shutdownAllList alive w2.checkers with
      | error e => simp [perform, hrl, hsd] at hrun
      | ok val =>
        obtain ⟨cks, new⟩ := val
        obtain ⟨hcks, hnew⟩ := shutdownAllList_spec alive _ _ _ hsd
        simp only [perform, hrl, hsd, Except.ok.injEq] at hrun
        subst hrun
        have hwf2 := hWF2 t
        simp only [LoopExit.state, LoopExit.sends, List.count_append] at hwf2
        have hle : (sends0 ++ (s2 ++ new)).count t ≤ 1 := by
          simp only [List.count_append]
          rw [hnew]
          omega
        refine ⟨hle, ?_⟩
        intro hnr _
        rcases runLoop_persist alive w sched c ch t (.flagStop w2 s2) hm htx
            hnr hrl with hin | ⟨ch', hmem', htx'⟩
        · have : 0 < s2.count t :=
            List.count_pos_iff.mpr (by simpa [LoopExit.sends] using hin)
          simp only [List.count_append]
          rw [hnew]
          omega
        · have hmem2 : (c, ch') ∈ w2.checkers := by
            simpa [LoopExit.state] using hmem'
          have hmemtx : t ∈ txList w2.checkers := by
            rw [← htx']
            exact List.mem_map_of_mem (fun p => p.2.tx) hmem2
          have : 0 < (txList w2.checkers).count t :=
            List.count_pos_iff.mpr hmemtx
          simp only [List.count_append]
          rw [hnew]
          omega
    | fatal e w2 s2 =>
      simp only [perform, hrl, Except.ok.injEq] at hrun
      subst hrun
      have hwf2 := hWF2 t
      simp only [LoopExit.state, LoopExit.sends, List.count_append] at hwf2
      refine ⟨by simp only [List.count_append]; omega, ?_⟩
      intro _ hres
      cases hres

/-- Witness for C1: a registered invocation whose return is processed and
whose Runner exits normally receives exactly one completion. -/
theorem C1_completion_fires_once_witness :
    (([] ++ [0]) : List Nat).count 0 ≤ 1 ∧
      (([] ++ [0]) : List Nat).count 0 = 1 :=
  ⟨(C1_completion_fires_once aliveAll
      ⟨[(1, ⟨0, [.awaitReturn 1]⟩)], some 1, []⟩ [] 1 ⟨0, [.awaitReturn 1]⟩ 0
      [(true, .signal (.Internal (.ReturnZomeFunctionResult 1)))]
      ⟨.ok (), ⟨[], some 1, []⟩, [0], true⟩
      (by
        intro a
        simpa [txList] using List.count_le_length a [0])
      (by
        intro a
        simpa [WFkeys, keyList] using List.count_le_length a [1])
      (by decide) rfl rfl).1,
   (C1_completion_fires_once aliveAll
      ⟨[(1, ⟨0, [.awaitReturn 1]⟩)], some 1, []⟩ [] 1 ⟨0, [.awaitReturn 1]⟩ 0
      [(true, .signal (.Internal (.ReturnZomeFunctionResult 1)))]
      ⟨.ok (), ⟨[], some 1, []⟩, [0], true⟩
      (by
        intro a
        simpa [txList] using List.count_le_length a [0])
      (by
        intro a
        simpa [WFkeys, keyList] using List.count_le_length a [1])
      (by decide) rfl rfl).2
        (by
          intro hflag
          refine ⟨fun hpr => absurd hpr (by decide), fun hpr => ?_, ?_⟩
          · cases hpr
          · intro sig w' new hpr hok
            exact trivial) rfl⟩

/-- C10: if `process_signal` handles an `ExecuteZomeFunction` for a call
id whose ConditionSet (sender `t`) is still outstanding and a
registration sender `t'` is pending, the old set is silently replaced by
a fresh one built around `t'` — the step fires nothing, the map now holds
`⟨t', [awaitReturn c]⟩` under `c`, `t` is gone from the map — and `t`
never fires in any continuation of the run (the first consumer's channel
is closed without a `Completed` or forced result ever being sent). -/
theorem C10_reregistration_destroys_old (alive : Nat → Bool) (w : Waiter)
    (sends0 : List Nat) (c : ZomeFnCall) (ch : CallFxChecker) (t t' : Nat)
    (q : List Nat)
    (hWF : WFsenders w sends0) (hkeys : WFkeys w)
    (hm : (c, ch) ∈ w.checkers) (htx : ch.tx = t) (hq : w.sender_rx = t' :: q) :
    w.process_signal alive (.Internal (.ExecuteZomeFunction c)) =
      .ok (⟨addCond (insertChecker w.checkers c (CallFxChecker.new t')) c
        (.awaitReturn c), some c, q⟩, []) ∧
    lookupChecker (addCond (insertChecker w.checkers c (CallFxChecker.new t'))
        c (.awaitReturn c)) c = some ⟨t', [.awaitReturn c]⟩ ∧
    t ∉ txList (addCond (insertChecker w.checkers c (CallFxChecker.new t')) c
        (.awaitReturn c)) ∧
    (∀ sched r, perform alive
        ⟨addCond (insertChecker w.checkers c (CallFxChecker.new t')) c
          (.awaitReturn c), some c, q⟩ sched = .ok r → t ∉ r.sends) := by
  have hwft := hWF t
  have hmemtx : t ∈ txList w.checkers := by
    rw [← htx]
    exact List.mem_map_of_mem (fun p => p.2.tx) hm
  have htxpos : 0 < (txList w.checkers).count t := List.count_pos_iff.mpr hmemtx
  have hqcount : (w.sender_rx).count t' = (q.count t') + 1 := by
    rw [hq]
    simp [List.count_cons]
  have htne : t' ≠ t := by
    intro hEq
    have : 0 < (w.sender_rx).count t := by
      rw [← hEq, hqcount]
      omega
    omega
  have hqnot : t ∉ q := by
    intro hmemq
    have h1 : 0 < (w.sender_rx).count t := by
      refine List.count_pos_iff.mpr ?_
      rw [hq]
      exact List.mem_cons_of_mem _ hmemq
    omega
  have htxle : (txList w.checkers).count t ≤ 1 := by omega
  have hnotin : t ∉ txList (addCond (insertChecker w.checkers c
      (CallFxChecker.new t')) c (.awaitReturn c)) := by
    rw [addCond_txList]
    rw [← htx] at htxle ⊢
    exact insertChecker_tx_notin w.checkers c ch (CallFxChecker.new t')
      (hkeys c) hm htxle (by simpa [CallFxChecker.new, htx] using htne)
  refine ⟨?_, insertAdd_lookup w.checkers c t' (.awaitReturn c), hnotin, ?_⟩
  · rw [process_signal_execute alive w c, execute_attribution w c t' q hq]
  · intro sched r hperf
    exact perform_notin alive _ sched r t hnotin hqnot hperf

/-- Witness for C10: re-registering call 7 (old sender `0`, new pending
sender `1`) replaces the set; running the Runner to a flag exit afterwards
fires only the new sender. -/
theorem C10_reregistration_destroys_old_witness :
    ((⟨[(7, ⟨0, [.awaitReturn 7]⟩)], some 7, [1]⟩ : Waiter).process_signal
        aliveAll (.Internal (.ExecuteZomeFunction 7)) =
      .ok (⟨addCond (insertChecker [(7, ⟨0, [.awaitReturn 7]⟩)] 7
        (CallFxChecker.new 1)) 7 (.awaitReturn 7), some 7, []⟩, [])) ∧
    (0 : Nat) ∉ ([1] : List Nat) :=
  ⟨(C10_reregistration_destroys_old aliveAll
      ⟨[(7, ⟨0, [.awaitReturn 7]⟩)], some 7, [1]⟩ [] 7 ⟨0, [.awaitReturn 7]⟩
      0 1 []
      (by
        intro a
        have hp := count_singleton_pair_le_one 0 1 a (by decide)
        simpa [txList] using hp)
      (by
        intro a
        simpa [WFkeys, keyList] using List.count_le_length a [7])
      (by decide) rfl rfl).1,
   (C10_reregistration_destroys_old aliveAll
      ⟨[(7, ⟨0, [.awaitReturn 7]⟩)], some 7, [1]⟩ [] 7 ⟨0, [.awaitReturn 7]⟩
      0 1 []
      (by
        intro a
        have hp := count_singleton_pair_le_one 0 1 a (by decide)
        simpa [txList] using hp)
      (by
        intro a
        simpa [WFkeys, keyList] using List.count_le_length a [7])
      (by decide) rfl rfl).2.2.2 [] ⟨.ok (), ⟨[(7, ⟨1, []⟩)], some 7, []⟩, [1], true⟩ rfl⟩

end NodejsWaiter
